import Mathlib

/-!
Verification of the lsdj-rs save-memory core: the block compression codec
(`compress_block` / `decompress_block`), the `LsdSng` export container, the
block filesystem (`Filesystem::insert_file` / `remove_file` / decompression),
`SongMemory::from_bytes` validation and `Name::<N>::from_bytes` validation.

Bytes are modelled as `Nat` (all values produced stay below 256 where the Rust
uses `u8`; the places where Rust truncates with `as u8` are modelled with an
explicit `% 256`).  I/O readers are modelled as the list of bytes still ahead
of the cursor, writers as the list of bytes written so far; a fallible
operation returns `Option` or `Except`.
-/

namespace Lsdj

/-- `RLE_BYTE` from `sram/file/serde/utils.rs`. -/
def RLE_BYTE : Nat := 0xC0

/-- `CMD_BYTE` from `sram/file/serde/utils.rs`. -/
def CMD_BYTE : Nat := 0xE0

/-- `DEFAULT_WAVE_BYTE` from `sram/file/serde/utils.rs`. -/
def DEFAULT_WAVE_BYTE : Nat := 0xF0

/-- `DEFAULT_INSTRUMENT_BYTE` from `sram/file/serde/utils.rs`. -/
def DEFAULT_INSTRUMENT_BYTE : Nat := 0xF1

/-- `EOF_BYTE` from `sram/file/serde/utils.rs`. -/
def EOF_BYTE : Nat := 0xFF

/-- Modelled from the spec: the fixed default-instrument reference buffer
(`crate::song::instrument::DEFAULT_INSTRUMENT`; the `instrument` module itself
is not present under src, only its declaration and callers).  The spec gives
its length (16 bytes); the byte values are the ones pinned by the in-repo
compressor and decompressor unit tests. -/
def DEFAULT_INSTRUMENT : List Nat :=
  [0xA8, 0x0, 0x0, 0xFF, 0x0, 0x0, 0x3, 0x0, 0x0, 0xD0, 0x0, 0x0, 0x0, 0xF3, 0x0, 0x0]

/-- Modelled from the spec: the fixed default-wave reference buffer
(`crate::song::wave::DEFAULT_WAVE`; the `wave` module itself is not present
under src, only its declaration and callers).  The byte values (and the
16-byte length) are the ones pinned by the in-repo compressor and decompressor
unit tests. -/
def DEFAULT_WAVE : List Nat :=
  [0x8E, 0xCD, 0xCC, 0xBB, 0xAA, 0xA9, 0x99, 0x88, 0x87, 0x76, 0x66, 0x55, 0x54, 0x43, 0x32, 0x31]

/-- `serde::End`: the result of compressing or decompressing one block. -/
inductive BlockEnd where
  | jumpToBlock (block : Nat)
  | endOfFile
deriving DecidableEq, Repr

/-- `serde::decompress::decompress_block`.  The reader is the list of bytes
ahead of the cursor, `out` the bytes written so far.  Returns the output, the
remaining reader bytes and the `End`, or `none` when `read_byte` fails because
the reader is exhausted mid-sequence. -/
def decompressBlock : List Nat → List Nat → Option (List Nat × List Nat × BlockEnd)
  | [], _ => none
  | b :: rest, out =>
    if b = RLE_BYTE then
      match rest with
      | [] => none
      | v :: r2 =>
        if v = RLE_BYTE then decompressBlock r2 (out ++ [RLE_BYTE])
        else
          match r2 with
          | [] => none
          | c :: r3 => decompressBlock r3 (out ++ List.replicate c v)
    else if b = CMD_BYTE then
      match rest with
      | [] => none
      | v :: r2 =>
        if v = CMD_BYTE then decompressBlock r2 (out ++ [CMD_BYTE])
        else if v = DEFAULT_WAVE_BYTE then
          match r2 with
          | [] => none
          | c :: r3 => decompressBlock r3 (out ++ (List.replicate c DEFAULT_WAVE).flatten)
        else if v = DEFAULT_INSTRUMENT_BYTE then
          match r2 with
          | [] => none
          | c :: r3 => decompressBlock r3 (out ++ (List.replicate c DEFAULT_INSTRUMENT).flatten)
        else if v = EOF_BYTE then some (out, r2, .endOfFile)
        else some (out, r2, .jumpToBlock v)
    else decompressBlock rest (out ++ [b])

example :
    decompressBlock [0x11, 0xC0, 0x07, 0x03, 0xE0, 0xFF] [] =
      some ([0x11, 0x07, 0x07, 0x07], [], .endOfFile) := by decide

example :
    decompressBlock [0xE0, 0x04] [] = some ([], [], .jumpToBlock 4) := by decide

example :
    decompressBlock [0xC0, 0xC0, 0xE0, 0xE0, 0xE0, 0xFF] [] =
      some ([0xC0, 0xE0], [], .endOfFile) := by decide

/-- `compress::Compression`: one step of the compression algorithm. -/
inductive Compression where
  | runLengthEncoding (value count : Nat)
  | defaultInstrument (count : Nat)
  | defaultWave (count : Nat)
  | rleLiteral
  | cmdLiteral
  | literal (value : Nat)
deriving DecidableEq, Repr

/-- `Compression::write`: the bytes one compression step writes. -/
def Compression.bytes : Compression → List Nat
  | .runLengthEncoding v c => [RLE_BYTE, v, c]
  | .defaultInstrument c => [CMD_BYTE, DEFAULT_INSTRUMENT_BYTE, c]
  | .defaultWave c => [CMD_BYTE, DEFAULT_WAVE_BYTE, c]
  | .rleLiteral => [RLE_BYTE, RLE_BYTE]
  | .cmdLiteral => [CMD_BYTE, CMD_BYTE]
  | .literal v => [v]

/-- The plain bytes a compression step stands for (what decompression emits
for `Compression.bytes`). -/
def Compression.decoded : Compression → List Nat
  | .runLengthEncoding v c => List.replicate c v
  | .defaultInstrument c => (List.replicate c DEFAULT_INSTRUMENT).flatten
  | .defaultWave c => (List.replicate c DEFAULT_WAVE).flatten
  | .rleLiteral => [RLE_BYTE]
  | .cmdLiteral => [CMD_BYTE]
  | .literal v => [v]

/-- Helper for `countMatches`: counts how many times `slice` repeats as a
prefix of `input`, up to `allowance` repeats, returning the count and the
input after the matched repeats. -/
def countMatchesAux (slice : List Nat) : Nat → List Nat → Nat × List Nat
  | 0, input => (0, input)
  | allowance + 1, input =>
    if slice.isPrefixOf input then
      let p := countMatchesAux slice allowance (input.drop slice.length)
      (p.1 + 1, p.2)
    else (0, input)

/-- `compress::count_matches`: starting from `init`, count consecutive repeats
of `slice` at the head of `input` while the count stays below `u8::MAX`,
advancing the reader past each matched repeat. -/
def countMatches (slice : List Nat) (init : Nat) (input : List Nat) : Nat × List Nat :=
  let p := countMatchesAux slice (255 - init) input
  (init + p.1, p.2)

/-- `compress::compress_step`: choose the next compression unit.  `none` models
the `read_byte` I/O failure on an exhausted reader. -/
def compressStep (input : List Nat) : Option (Compression × List Nat) :=
  let pi := countMatches DEFAULT_INSTRUMENT 0 input
  if 1 ≤ pi.1 then some (.defaultInstrument pi.1, pi.2)
  else
    let pw := countMatches DEFAULT_WAVE 0 input
    if 1 ≤ pw.1 then some (.defaultWave pw.1, pw.2)
    else
      match input with
      | [] => none
      | v :: rest =>
        if v = CMD_BYTE then some (.cmdLiteral, rest)
        else if v = RLE_BYTE then some (.rleLiteral, rest)
        else
          let pr := countMatches [v] 1 rest
          if 2 ≤ pr.1 then some (.runLengthEncoding v pr.1, pr.2)
          else some (.literal v, rest)

example : compressStep [0xE0] = some (.cmdLiteral, []) := by decide
example : compressStep [0xC0] = some (.rleLiteral, []) := by decide
example : compressStep [4, 4, 4, 4, 4, 4, 4] = some (.runLengthEncoding 4 7, []) := by decide
example : compressStep [4, 9] = some (.literal 4, [9]) := by decide
example :
    compressStep (DEFAULT_INSTRUMENT ++ DEFAULT_INSTRUMENT ++
        [0xA8, 0x0, 0x0, 0xFF, 0x0, 0x0, 0x3, 0x0, 0x0, 0xD0, 0x0, 0x0, 0x0, 0xF3, 0x0, 0xFF]) =
      some (.defaultInstrument 2,
        [0xA8, 0x0, 0x0, 0xFF, 0x0, 0x0, 0x3, 0x0, 0x0, 0xD0, 0x0, 0x0, 0x0, 0xF3, 0x0, 0xFF]) := by
  decide

theorem countMatchesAux_decomp (slice : List Nat) :
    ∀ (n : Nat) (input : List Nat),
      input = (List.replicate (countMatchesAux slice n input).1 slice).flatten ++
        (countMatchesAux slice n input).2
  | 0, input => by simp [countMatchesAux]
  | n + 1, input => by
    by_cases h : slice.isPrefixOf input
    · have hpre : slice ++ input.drop slice.length = input := by
        rcases (List.isPrefixOf_iff_prefix.mp h) with ⟨t, rfl⟩
        simp
      have ih := countMatchesAux_decomp slice n (input.drop slice.length)
      simp only [countMatchesAux, h, if_true]
      conv_lhs => rw [← hpre]
      rw [List.replicate_succ, List.flatten_cons, List.append_assoc]
      exact congrArg (slice ++ ·) ih
    · simp [countMatchesAux, h]

theorem countMatchesAux_length_le (slice : List Nat) (n : Nat) (input : List Nat) :
    (countMatchesAux slice n input).2.length ≤ input.length := by
  conv_rhs => rw [countMatchesAux_decomp slice n input]
  simp

theorem countMatchesAux_length_lt (slice : List Nat) (n : Nat) (input : List Nat)
    (hs : slice ≠ []) (hc : 1 ≤ (countMatchesAux slice n input).1) :
    (countMatchesAux slice n input).2.length < input.length := by
  have hd := countMatchesAux_decomp slice n input
  rcases hq : countMatchesAux slice n input with ⟨c, r⟩
  rw [hq] at hd hc
  simp only at hd hc ⊢
  rcases c with _ | c
  · omega
  · have hsl : 0 < slice.length := List.length_pos.mpr hs
    rw [hd]
    simp [List.replicate_succ]
    omega

/-- A successful compression step always consumes input. -/
theorem compressStep_length_lt {input rest : List Nat} {c : Compression}
    (h : compressStep input = some (c, rest)) : rest.length < input.length := by
  unfold compressStep at h
  by_cases hi : 1 ≤ (countMatches DEFAULT_INSTRUMENT 0 input).1
  · simp only [hi, if_true] at h
    obtain ⟨rfl, rfl⟩ : c = .defaultInstrument (countMatches DEFAULT_INSTRUMENT 0 input).1 ∧
        rest = (countMatches DEFAULT_INSTRUMENT 0 input).2 := by
      cases h; exact ⟨rfl, rfl⟩
    exact countMatchesAux_length_lt _ _ _ (by decide) (by simpa [countMatches] using hi)
  · simp only [hi, if_false] at h
    by_cases hw : 1 ≤ (countMatches DEFAULT_WAVE 0 input).1
    · simp only [hw, if_true] at h
      obtain ⟨rfl, rfl⟩ : c = .defaultWave (countMatches DEFAULT_WAVE 0 input).1 ∧
          rest = (countMatches DEFAULT_WAVE 0 input).2 := by
        cases h; exact ⟨rfl, rfl⟩
      exact countMatchesAux_length_lt _ _ _ (by decide) (by simpa [countMatches] using hw)
    · simp only [hw, if_false] at h
      match input, h with
      | v :: tail, h =>
        by_cases hcmd : v = CMD_BYTE
        · simp only [hcmd, if_true] at h
          cases h
          simp
        · simp only [hcmd, if_false] at h
          by_cases hrle : v = RLE_BYTE
          · simp only [hrle, if_false, if_true] at h
            cases h
            simp
          · simp only [hrle, if_false] at h
            by_cases h2 : 2 ≤ (countMatches [v] 1 tail).1
            · simp only [h2, if_true] at h
              cases h
              have hle := countMatchesAux_length_le [v] 254 tail
              simp only [countMatches]
              norm_num
              omega
            · simp only [h2, if_false] at h
              cases h
              simp

theorem length_flatten_replicate (m : Nat) (s : List Nat) :
    (List.replicate m s).flatten.length = m * s.length := by
  induction m with
  | zero => simp
  | succ m ih => simp [List.replicate_succ, ih, Nat.succ_mul]; omega

/-- Side conditions under which `Compression.bytes` decompresses back to
`Compression.decoded` (they hold for every step the compressor emits). -/
def Compression.Good : Compression → Prop
  | .runLengthEncoding v _ => v ≠ RLE_BYTE ∧ v ≠ CMD_BYTE
  | .literal v => v ≠ RLE_BYTE ∧ v ≠ CMD_BYTE
  | _ => True

/-- What one successful compression step guarantees: the consumed input is
exactly `c.decoded`, the step is well-formed, and the written bytes are short
(at most 3, and at most twice the consumed length). -/
theorem compressStep_spec {input rest : List Nat} {c : Compression}
    (h : compressStep input = some (c, rest)) :
    input = c.decoded ++ rest ∧ c.Good ∧
      c.bytes.length ≤ 2 * c.decoded.length ∧
      1 ≤ c.bytes.length ∧ c.bytes.length ≤ 3 := by
  unfold compressStep at h
  by_cases hi : 1 ≤ (countMatches DEFAULT_INSTRUMENT 0 input).1
  · simp only [hi, if_true] at h
    cases h
    have hd := countMatchesAux_decomp DEFAULT_INSTRUMENT 255 input
    refine ⟨?_, trivial, ?_, by simp [Compression.bytes], by simp [Compression.bytes]⟩
    · simpa [Compression.decoded, countMatches] using hd
    · simp only [countMatches] at hi ⊢
      norm_num at hi ⊢
      simp only [Compression.bytes, Compression.decoded]
      rw [length_flatten_replicate]
      have : (DEFAULT_INSTRUMENT : List Nat).length = 16 := by decide
      simp [this]
      omega
  · simp only [hi, if_false] at h
    by_cases hw : 1 ≤ (countMatches DEFAULT_WAVE 0 input).1
    · simp only [hw, if_true] at h
      cases h
      have hd := countMatchesAux_decomp DEFAULT_WAVE 255 input
      refine ⟨?_, trivial, ?_, by simp [Compression.bytes], by simp [Compression.bytes]⟩
      · simpa [Compression.decoded, countMatches] using hd
      · simp only [countMatches] at hw ⊢
        simp only [Compression.bytes, Compression.decoded]
        rw [length_flatten_replicate]
        have hlen : (DEFAULT_WAVE : List Nat).length = 16 := by decide
        rw [hlen]
        simp only [List.length_cons, List.length_nil]
        omega
    · simp only [hw, if_false] at h
      match input, h with
      | v :: tail, h =>
        by_cases hcmd : v = CMD_BYTE
        · simp only [hcmd, if_true] at h
          cases h
          exact ⟨by simp [Compression.decoded, hcmd], trivial, by simp [Compression.bytes,
            Compression.decoded], by simp [Compression.bytes], by simp [Compression.bytes]⟩
        · simp only [hcmd, if_false] at h
          by_cases hrle : v = RLE_BYTE
          · simp only [hrle, if_false, if_true] at h
            cases h
            exact ⟨by simp [Compression.decoded, hrle], trivial, by simp [Compression.bytes,
              Compression.decoded], by simp [Compression.bytes], by simp [Compression.bytes]⟩
          · simp only [hrle, if_false] at h
            by_cases h2 : 2 ≤ (countMatches [v] 1 tail).1
            · simp only [h2, if_true] at h
              cases h
              have hd := countMatchesAux_decomp [v] 254 tail
              refine ⟨?_, ⟨hrle, hcmd⟩, ?_, by simp [Compression.bytes],
                by simp [Compression.bytes]⟩
              · simp only [Compression.decoded, countMatches]
                norm_num
                have : List.replicate (1 + (countMatchesAux [v] 254 tail).1) v =
                    v :: List.replicate ((countMatchesAux [v] 254 tail).1) v := by
                  rw [Nat.add_comm]
                  simp [List.replicate_succ]
                rw [this]
                simp only [List.cons_append, List.cons.injEq, true_and]
                have hrep : (List.replicate ((countMatchesAux [v] 254 tail).1) [v]).flatten =
                    List.replicate ((countMatchesAux [v] 254 tail).1) v := by
                  induction ((countMatchesAux [v] 254 tail).1) with
                  | zero => simp
                  | succ n ih => simp [List.replicate_succ, ih]
                conv_lhs => rw [hd]
                rw [hrep]
              · simp only [countMatches] at h2 ⊢
                simp only [Compression.bytes, Compression.decoded, List.length_cons,
                  List.length_nil, List.length_replicate]
                omega
            · simp only [h2, if_false] at h
              cases h
              exact ⟨by simp [Compression.decoded], ⟨hrle, hcmd⟩, by simp [Compression.bytes,
                Compression.decoded], by simp [Compression.bytes], by simp [Compression.bytes]⟩

/-- `compress_step` succeeds whenever the reader is not exhausted. -/
theorem compressStep_isSome {input : List Nat} (h : input ≠ []) :
    (compressStep input).isSome = true := by
  unfold compressStep
  match input, h with
  | v :: tail, _ =>
    by_cases hi : 1 ≤ (countMatches DEFAULT_INSTRUMENT 0 (v :: tail)).1
    · simp [hi]
    · simp only [hi, if_false]
      by_cases hw : 1 ≤ (countMatches DEFAULT_WAVE 0 (v :: tail)).1
      · simp [hw]
      · simp only [hw, if_false]
        by_cases hcmd : v = CMD_BYTE
        · simp [hcmd]
        · by_cases hrle : v = RLE_BYTE
          · simp [hcmd, hrle, RLE_BYTE, CMD_BYTE]
          · by_cases h2 : 2 ≤ (countMatches [v] 1 tail).1 <;> simp [hcmd, hrle, h2]

/-- Errors that `compress_block` can return (`CompressBlockError`). -/
inductive CompressError where
  | ioFailure
  | noBlockLeft
deriving DecidableEq, Repr

/-- `compress::compress_block`.  `nextBlock` is the (pure) result the
caller-supplied `next_block()` closure would return, `input` the bytes ahead
of the reader, `cap` the number of bytes left in the destination block.
Returns the written block bytes (exactly `cap` of them), the remaining input
and the `End`; `ioFailure` models the `io::Error` paths (writer too small). -/
def compressBlock (nextBlock : Option Nat) (input : List Nat) (cap : Nat) :
    Except CompressError (List Nat × List Nat × BlockEnd) :=
  match input with
  | [] =>
    if 2 ≤ cap then .ok (CMD_BYTE :: EOF_BYTE :: List.replicate (cap - 2) 0, [], .endOfFile)
    else .error .ioFailure
  | b :: tail =>
    if 5 ≤ cap then
      match hstep : compressStep (b :: tail) with
      | none => .error .ioFailure
      | some (c, rest) =>
        match compressBlock nextBlock rest (cap - c.bytes.length) with
        | .error e => .error e
        | .ok (blk, rest2, e) => .ok (c.bytes ++ blk, rest2, e)
    else
      nextBlock.elim (.error .noBlockLeft) (fun idx =>
        if 2 ≤ cap then
          .ok (CMD_BYTE :: idx :: List.replicate (cap - 2) 0, b :: tail, .jumpToBlock idx)
        else .error .ioFailure)
termination_by input.length
decreasing_by exact compressStep_length_lt hstep

/-- Decompressing the bytes of one well-formed compression step prepended to
anything emits exactly the step's decoded bytes and continues. -/
theorem decompressBlock_bytes (c : Compression) (hg : c.Good) (s out : List Nat) :
    decompressBlock (c.bytes ++ s) out = decompressBlock s (out ++ c.decoded) := by
  have hcr : ¬ (CMD_BYTE = RLE_BYTE) := by decide
  cases c with
  | runLengthEncoding v cnt =>
    obtain ⟨hv, _⟩ := hg
    simp [Compression.bytes, Compression.decoded, decompressBlock, hv]
  | defaultInstrument cnt =>
    have h2 : ¬ (DEFAULT_INSTRUMENT_BYTE = CMD_BYTE) := by decide
    have h3 : ¬ (DEFAULT_INSTRUMENT_BYTE = DEFAULT_WAVE_BYTE) := by decide
    simp [Compression.bytes, Compression.decoded, decompressBlock, hcr, h2, h3]
  | defaultWave cnt =>
    have h2 : ¬ (DEFAULT_WAVE_BYTE = CMD_BYTE) := by decide
    simp [Compression.bytes, Compression.decoded, decompressBlock, hcr, h2]
  | rleLiteral =>
    rw [decompressBlock.eq_def]
    simp [Compression.bytes, Compression.decoded]
  | cmdLiteral =>
    rw [decompressBlock.eq_def]
    simp [Compression.bytes, Compression.decoded, hcr]
  | literal v =>
    obtain ⟨hv1, hv2⟩ := hg
    rw [decompressBlock.eq_def]
    simp [Compression.bytes, Compression.decoded, hv1, hv2]

/-- A returned `End` whose jump target byte does not collide with one of the
command bytes (always true for the targets the drivers feed in). -/
def GoodEnd : BlockEnd → Prop
  | .endOfFile => True
  | .jumpToBlock t =>
    t ≠ CMD_BYTE ∧ t ≠ DEFAULT_WAVE_BYTE ∧ t ≠ DEFAULT_INSTRUMENT_BYTE ∧ t ≠ EOF_BYTE

/-- Everything a successful `compress_block` run guarantees: the block is
exactly `cap` bytes, the consumed input prefix is reproduced by decompressing
the block (followed by arbitrary bytes) and the `End` matches the source's
contract (jump only when the allocator supplied the target; end-of-file only
when the input was exhausted). -/
theorem compressBlock_spec (nextBlock : Option Nat) (input : List Nat) (cap : Nat) :
    ∀ {blk rest : List Nat} {e : BlockEnd},
      compressBlock nextBlock input cap = .ok (blk, rest, e) →
      ∃ consumed pad,
        input = consumed ++ rest ∧
        blk.length = cap ∧
        (∀ t, e = .jumpToBlock t → cap ≤ 2 * consumed.length + 4 ∧ nextBlock = some t) ∧
        (e = .endOfFile → rest = []) ∧
        (∀ s out, GoodEnd e →
          decompressBlock (blk ++ s) out =
            some (out ++ consumed, List.replicate pad 0 ++ s, e)) := by
  induction input, cap using compressBlock.induct nextBlock with
  | case1 cap h2 =>
    intro blk rest e h
    rw [compressBlock.eq_def] at h
    simp only [h2, if_true] at h
    cases h
    refine ⟨[], cap - 2, by simp, by simp; omega, ?_, ?_, ?_⟩
    · intro t ht
      exact absurd ht (by simp)
    · intro _
      rfl
    · intro s out _
      have ha : ¬ (CMD_BYTE = RLE_BYTE) := by decide
      have hb : ¬ (EOF_BYTE = CMD_BYTE) := by decide
      have hc : ¬ (EOF_BYTE = DEFAULT_WAVE_BYTE) := by decide
      have hd : ¬ (EOF_BYTE = DEFAULT_INSTRUMENT_BYTE) := by decide
      rw [decompressBlock.eq_def]
      simp [ha, hb, hc, hd]
  | case2 cap h2 =>
    intro blk rest e h
    rw [compressBlock.eq_def] at h
    simp [h2] at h
  | case3 cap v rest h5 hstep =>
    intro blk rest e h
    rw [compressBlock.eq_def] at h
    simp only [h5, if_true] at h
    split at h
    · simp at h
    · rename_i heq
      rw [hstep] at heq
      simp at heq
  | case4 cap v rest h5 c rest1 hstep err herr ih =>
    intro blk rest e h
    rw [compressBlock.eq_def] at h
    simp only [h5, if_true] at h
    split at h
    · simp at h
    · rename_i c2 rest2a heq
      rw [hstep] at heq
      cases heq
      split at h
      · simp at h
      · rename_i heq2
        rw [herr] at heq2
        simp at heq2
  | case5 cap v rest h5 c rest1 hstep blk' rest2 e hrec ih =>
    intro blk rest e h
    rw [compressBlock.eq_def] at h
    simp only [h5, if_true] at h
    split at h
    · simp at h
    · rename_i c2 rest2a heq
      rw [hstep] at heq
      cases heq
      split at h
      · rename_i heq2
        rw [hrec] at heq2
        simp at heq2
      · rename_i blk2 rest2b e2 heq2
        rw [hrec] at heq2
        cases heq2
        cases h
        obtain ⟨consumed', pad, hsplit, hlen, hjump, heof, hdec⟩ := ih hrec
        obtain ⟨hdecomp, hgood, hbound, hb1, hb3⟩ := compressStep_spec hstep
        refine ⟨c.decoded ++ consumed', pad, ?_, ?_, ?_, heof, ?_⟩
        · rw [hdecomp, hsplit, List.append_assoc]
        · simp only [List.length_append, hlen]
          omega
        · intro t ht
          obtain ⟨hcap, hnb⟩ := hjump t ht
          refine ⟨?_, hnb⟩
          simp only [List.length_append]
          omega
        · intro s out hge
          rw [List.append_assoc, decompressBlock_bytes c hgood, hdec _ _ hge,
            List.append_assoc]
  | case6 cap v rest h5 =>
    intro blk rest e h
    rw [compressBlock.eq_def] at h
    simp only [h5, if_false] at h
    cases hnb : nextBlock with
    | none =>
      rw [hnb] at h
      simp [Option.elim] at h
    | some idx =>
      rw [hnb] at h
      simp only [Option.elim] at h
      by_cases h2 : 2 ≤ cap
      · simp only [h2, if_true] at h
        cases h
        refine ⟨[], cap - 2, by simp, by simp; omega, ?_, ?_, ?_⟩
        · intro t ht
          cases ht
          exact ⟨by omega, rfl⟩
        · intro heq
          exact absurd heq (by simp)
        · intro s out hge
          obtain ⟨hg1, hg2, hg3, hg4⟩ := hge
          have ha : ¬ (CMD_BYTE = RLE_BYTE) := by decide
          rw [decompressBlock.eq_def]
          simp [ha, hg1, hg2, hg3, hg4]
      · simp [h2] at h

/-- A jump-ending block with room for at least one compression step strictly
consumes input (each written payload byte stands for at least half an input
byte, and at least 5 bytes of capacity force at least one step). -/
theorem compressBlock_jump_lt {nb : Option Nat} {input : List Nat} {cap : Nat}
    {blk rest : List Nat} {t : Nat}
    (h : compressBlock nb input cap = .ok (blk, rest, .jumpToBlock t)) (h5 : 5 ≤ cap) :
    rest.length < input.length := by
  obtain ⟨consumed, pad, hsplit, _, hjump, _, _⟩ := compressBlock_spec nb input cap h
  obtain ⟨hcap, _⟩ := hjump t rfl
  have hone : 1 ≤ consumed.length := by omega
  rw [hsplit]
  simp only [List.length_append]
  omega

/-- With an allocator that always answers and at least 2 bytes of room,
`compress_block` cannot fail. -/
theorem compressBlock_isOk (t : Nat) (input : List Nat) (cap : Nat) :
    2 ≤ cap → ∃ blk rest e, compressBlock (some t) input cap = .ok (blk, rest, e) := by
  induction input, cap using compressBlock.induct (some t) with
  | case1 cap h2 =>
    intro _
    refine ⟨CMD_BYTE :: EOF_BYTE :: List.replicate (cap - 2) 0, [], .endOfFile, ?_⟩
    rw [compressBlock.eq_def]
    simp [h2]
  | case2 cap h2 =>
    intro hc
    exact absurd hc h2
  | case3 cap v rest h5 hstep =>
    intro _
    have := @compressStep_isSome (v :: rest) (by simp)
    rw [hstep] at this
    simp at this
  | case4 cap v rest h5 c rest1 hstep err herr ih =>
    intro _
    obtain ⟨_, _, _, hb1, hb3⟩ := compressStep_spec hstep
    obtain ⟨blk, rest2, e, hok⟩ := ih (by omega)
    rw [hok] at herr
    simp at herr
  | case5 cap v rest h5 c rest1 hstep blk' rest2 e hrec ih =>
    intro _
    refine ⟨c.bytes ++ blk', rest2, e, ?_⟩
    rw [compressBlock.eq_def]
    simp only [h5, if_true]
    split
    · rename_i heq
      rw [hstep] at heq
      simp at heq
    · rename_i c2 rest2a heq
      rw [hstep] at heq
      cases heq
      rw [hrec]
  | case6 cap v rest h5 =>
    intro h2
    refine ⟨CMD_BYTE :: t :: List.replicate (cap - 2) 0, v :: rest, .jumpToBlock t, ?_⟩
    rw [compressBlock.eq_def]
    simp [h5, Option.elim, h2]

/-- `SongMemory`: marker bytes `0x72 0x62` at a given offset. -/
def songMarkerAt (bytes : List Nat) (off : Nat) : Bool :=
  bytes.getD off 0 == 0x72 && bytes.getD (off + 1) 0 == 0x62

/-- The `SongMemory::from_bytes` initialization check: the marker must be
present at at least one of the three fixed offsets. -/
def songCheck (bytes : List Nat) : Bool :=
  songMarkerAt bytes 0x1E78 || songMarkerAt bytes 0x3E80 || songMarkerAt bytes 0x7FF0

/-- Errors of `SongMemory::from_bytes` (`song::FromBytesError`). -/
inductive SongFromBytesError where
  | incorrectSize
  | initializationCheckIncorrect
deriving DecidableEq, Repr

/-- `SongMemory::from_bytes`: exactly `0x8000` bytes, and the initialization
check must pass. -/
def songFromBytes (bytes : List Nat) : Except SongFromBytesError (List Nat) :=
  if bytes.length ≠ 0x8000 then .error .incorrectSize
  else if songCheck bytes then .ok bytes
  else .error .initializationCheckIncorrect

/-- The block-production loop of `LsdSng::from_song`: block `k` is compressed
with the allocator closure `|| Some(blocks.len() as u8)`, which at that point
returns `k % 256`.  Returns the list of 512-byte blocks. -/
def lsdsngFromSongLoop (input : List Nat) (k : Nat) :
    Except CompressError (List (List Nat)) :=
  match h : compressBlock (some (k % 256)) input 512 with
  | .error e => .error e
  | .ok (blk, _, .endOfFile) => .ok [blk]
  | .ok (blk, rest, .jumpToBlock _) =>
    match lsdsngFromSongLoop rest (k + 1) with
    | .error e => .error e
    | .ok blks => .ok (blk :: blks)
termination_by input.length
decreasing_by exact compressBlock_jump_lt h (by norm_num)

/-- `LsdSng::from_song`, restricted to the compressed block bytes it stores
(the name and version are carried unchanged). -/
def lsdsngFromSong (song : List Nat) : Except CompressError (List Nat) :=
  (lsdsngFromSongLoop song 0).map List.flatten

/-- The decompression driver of `LsdSng::decompress`: jump values are ignored
and the reader is re-seeked to `block * BLOCK_LEN` with `block` incremented by
one after every non-EOF block; at end-of-file the writer must sit exactly at
`SongMemory::LEN` (the `assert_eq!`, modelled as failure) and the memory is
re-validated by `SongMemory::from_reader`.  The guard `512 * k <
blocks.length` only bounds the recursion: when it fails the next read is from
an exhausted reader and the next iteration would return `none` anyway. -/
def lsdsngDecompressLoop (blocks : List Nat) (k : Nat) (out : List Nat) : Option (List Nat) :=
  match decompressBlock (blocks.drop (512 * k)) out with
  | none => none
  | some (out2, _, .endOfFile) =>
    if out2.length = 0x8000 then (if songCheck out2 then some out2 else none) else none
  | some (out2, _, .jumpToBlock _) =>
    if h : 512 * k < blocks.length then lsdsngDecompressLoop blocks (k + 1) out2 else none
termination_by blocks.length - 512 * k
decreasing_by omega

/-- `LsdSng::decompress` on the stored flat block bytes. -/
def lsdsngDecompress (blocks : List Nat) : Option (List Nat) :=
  lsdsngDecompressLoop blocks 0 []

/-- The export-style compression loop always succeeds: the allocator closure
always answers. -/
theorem lsdsngFromSongLoop_isOk (input : List Nat) (k : Nat) :
    ∃ blks, lsdsngFromSongLoop input k = .ok blks := by
  induction input, k using lsdsngFromSongLoop.induct with
  | case1 input k e heq =>
    obtain ⟨blk, rest, e2, hok⟩ := compressBlock_isOk (k % 256) input 512 (by norm_num)
    rw [hok] at heq
    simp at heq
  | case2 input k blk x heq =>
    refine ⟨[blk], ?_⟩
    rw [lsdsngFromSongLoop.eq_def]
    split
    · rename_i heq2
      rw [heq] at heq2
      simp at heq2
    · rename_i blk2 x2 heq2
      rw [heq] at heq2
      cases heq2
      rfl
    · rename_i blk2 rest2 t2 heq2
      rw [heq] at heq2
      simp at heq2
  | case3 input k blk rest t heq e2 hrec ih =>
    obtain ⟨blks, hok⟩ := ih
    rw [hok] at hrec
    simp at hrec
  | case4 input k blk rest t heq blks hrec ih =>
    refine ⟨blk :: blks, ?_⟩
    rw [lsdsngFromSongLoop.eq_def]
    split
    · rename_i heq2
      rw [heq] at heq2
      simp at heq2
    · rename_i blk2 x2 heq2
      rw [heq] at heq2
      simp at heq2
    · rename_i blk2 rest2 t2 heq2
      rw [heq] at heq2
      cases heq2
      rw [hrec]

/-- Round-trip of the export path: decompressing the flat block list written
by the compression loop reproduces the compressed input exactly, for any
starting block index `k` consistent with the consumption invariant (every
jump-ending block consumes at least 254 input bytes, so jump bytes stay below
the command range). -/
theorem lsdsngRoundtripLoop (input : List Nat) (k : Nat) :
    ∀ (blks : List (List Nat)),
      input.length + 254 * k ≤ 0x8000 →
      lsdsngFromSongLoop input k = .ok blks →
      (∀ b ∈ blks, b.length = 512) ∧
      (∀ pre out : List Nat, pre.length = 512 * k →
        lsdsngDecompressLoop (pre ++ blks.flatten) k out =
          (if (out ++ input).length = 0x8000 then
            (if songCheck (out ++ input) then some (out ++ input) else none)
          else none)) := by
  induction input, k using lsdsngFromSongLoop.induct with
  | case1 input k e heq =>
    intro blks hk hok
    rw [lsdsngFromSongLoop.eq_def] at hok
    rw [heq] at hok
    simp at hok
  | case2 input k blk x heq =>
    intro blks hk hok
    rw [lsdsngFromSongLoop.eq_def] at hok
    rw [heq] at hok
    cases hok
    obtain ⟨consumed, pad, hsplit, hlen, hjump, heof, hdec⟩ :=
      compressBlock_spec (some (k % 256)) input 512 heq
    have hrest0 : x = [] := heof rfl
    subst hrest0
    rw [List.append_nil] at hsplit
    subst hsplit
    constructor
    · intro b hb
      simp at hb
      rw [hb]
      exact hlen
    · intro pre out hpre
      rw [lsdsngDecompressLoop.eq_def]
      have hdrop : (pre ++ [blk].flatten).drop (512 * k) = blk ++ [] := by
        simp only [List.flatten_cons, List.flatten_nil]
        rw [← hpre, List.drop_left]
      rw [hdrop]
      have := hdec [] out trivial
      rw [this]
  | case3 input k blk rest t heq e2 hrec ih =>
    intro blks hk hok
    rw [lsdsngFromSongLoop.eq_def] at hok
    rw [heq] at hok
    simp only at hok
    rw [hrec] at hok
    simp at hok
  | case4 input k blk rest t heq blks0 hrec ih =>
    intro blks hk hok
    rw [lsdsngFromSongLoop.eq_def] at hok
    rw [heq] at hok
    simp only at hok
    rw [hrec] at hok
    cases hok
    obtain ⟨consumed, pad, hsplit, hlen, hjump, heof, hdec⟩ :=
      compressBlock_spec (some (k % 256)) input 512 heq
    obtain ⟨hbound, hteq⟩ := hjump t rfl
    have htk : t = k % 256 := by
      cases hteq
      rfl
    have hcons : 254 ≤ consumed.length := by omega
    have hkle : k ≤ 129 := by
      by_contra hgt
      push_neg at hgt
      have hinlen : 0 ≤ input.length := Nat.zero_le _
      omega
    have hkmod : k % 256 = k := Nat.mod_eq_of_lt (by omega)
    subst htk
    rw [hkmod] at hdec heq
    have hrestlen : rest.length + 254 * (k + 1) ≤ 0x8000 := by
      have : input.length = consumed.length + rest.length := by
        rw [hsplit]
        simp
      omega
    obtain ⟨ihlen, ihdec⟩ := ih blks0 hrestlen hrec
    constructor
    · intro b hb
      simp only [List.mem_cons] at hb
      rcases hb with hb | hb
      · rw [hb]
        exact hlen
      · exact ihlen b hb
    · intro pre out hpre
      rw [lsdsngDecompressLoop.eq_def]
      have hdrop : (pre ++ (blk :: blks0).flatten).drop (512 * k) =
          blk ++ blks0.flatten := by
        simp only [List.flatten_cons]
        rw [← hpre, List.drop_left]
      rw [hdrop]
      have hgood : GoodEnd (.jumpToBlock k) := by
        refine ⟨?_, ?_, ?_, ?_⟩ <;> simp only [CMD_BYTE, DEFAULT_WAVE_BYTE,
          DEFAULT_INSTRUMENT_BYTE, EOF_BYTE] <;> omega
      rw [hdec blks0.flatten out hgood]
      simp only
      have hguard : 512 * k < (pre ++ (blk :: blks0).flatten).length := by
        simp only [List.length_append, List.flatten_cons, hpre, List.length_append, hlen]
        omega
      rw [dif_pos hguard]
      have hassoc : pre ++ (blk :: blks0).flatten = (pre ++ blk) ++ blks0.flatten := by
        simp [List.append_assoc]
      rw [hassoc]
      have hpre2 : (pre ++ blk).length = 512 * (k + 1) := by
        simp [hpre, hlen]
        omega
      rw [ihdec (pre ++ blk) (out ++ consumed) hpre2]
      rw [List.append_assoc, ← hsplit]

theorem getD_replicate_add (n a : Nat) (l : List Nat) (m i d : Nat) (hm : m = n + i) :
    (List.replicate n a ++ l).getD m d = l.getD i d := by
  rw [List.getD_append_right _ _ _ _ (by rw [List.length_replicate]; omega),
    List.length_replicate]
  congr 1
  omega

/-- C1: for every valid `SongMemory` (32768 bytes passing the marker check),
compressing it block-by-block as `LsdSng::from_song` does (export-style
flattening, allocator always answering with the running block count) and then
decompressing the concatenated blocks with the consecutive-block driver
`LsdSng::decompress` succeeds and reproduces the song byte-for-byte. -/
theorem C1_export_roundtrip (S : List Nat) (hlen : S.length = 0x8000)
    (hbytes : ∀ b ∈ S, b < 256) (hcheck : songCheck S = true) :
    ∃ B, lsdsngFromSong S = .ok B ∧ lsdsngDecompress B = some S := by
  obtain ⟨blks, hok⟩ := lsdsngFromSongLoop_isOk S 0
  obtain ⟨hblen, hdec⟩ := lsdsngRoundtripLoop S 0 blks (by omega) hok
  refine ⟨blks.flatten, ?_, ?_⟩
  · rw [lsdsngFromSong, hok]
    rfl
  · rw [lsdsngDecompress]
    have hloop := hdec [] [] (by simp)
    simp only [List.nil_append] at hloop
    rw [hloop, if_pos hlen, if_pos hcheck]

/-- A concrete valid song: all zero except the first initialization marker. -/
def witnessSong : List Nat :=
  List.replicate 0x1E78 0 ++ ([0x72, 0x62] ++ List.replicate 0x6186 0)

theorem witnessSong_length : witnessSong.length = 0x8000 := by
  rw [witnessSong, List.length_append, List.length_append, List.length_replicate,
    List.length_replicate, List.length_cons, List.length_cons, List.length_nil]

theorem witnessSong_bytes : ∀ b ∈ witnessSong, b < 256 := by
  intro b hb
  rw [witnessSong] at hb
  simp only [List.mem_append, List.mem_replicate, List.mem_cons,
    List.not_mem_nil, or_false, ne_eq] at hb
  rcases hb with ⟨-, rfl⟩ | (rfl | rfl) | ⟨-, rfl⟩ <;> norm_num

theorem witnessSong_check : songCheck witnessSong = true := by
  have hm : songMarkerAt witnessSong 0x1E78 = true := by
    rw [songMarkerAt, witnessSong,
      getD_replicate_add 0x1E78 0 _ 0x1E78 0 0 (by norm_num),
      getD_replicate_add 0x1E78 0 _ (0x1E78 + 1) 1 0 (by norm_num)]
    rfl
  rw [songCheck, hm]
  rfl

theorem C1_export_roundtrip_witness :
    witnessSong.length = 0x8000 ∧ (∀ b ∈ witnessSong, b < 256) ∧
      songCheck witnessSong = true ∧
      ∃ B, lsdsngFromSong witnessSong = .ok B ∧ lsdsngDecompress B = some witnessSong :=
  ⟨witnessSong_length, witnessSong_bytes, witnessSong_check,
    C1_export_roundtrip witnessSong witnessSong_length witnessSong_bytes witnessSong_check⟩

/-- Helper: unfold one successful compression step of `compress_block`. -/
theorem compressBlock_step_unfold (nb : Option Nat) (b : Nat) (tail : List Nat) (cap : Nat)
    (h5 : 5 ≤ cap) (c : Compression) (rest : List Nat)
    (hstep : compressStep (b :: tail) = some (c, rest)) :
    compressBlock nb (b :: tail) cap =
      match compressBlock nb rest (cap - c.bytes.length) with
      | .error e => .error e
      | .ok (blk, rest2, e) => .ok (c.bytes ++ blk, rest2, e) := by
  rw [compressBlock.eq_def]
  simp only [h5, if_true]
  split
  · rename_i heq
    rw [hstep] at heq
    simp at heq
  · rename_i c2 rest2a heq
    rw [hstep] at heq
    cases heq
    rfl

/-- C2: at a block boundary (fewer than 5 destination bytes left) with input
remaining, no compression step is attempted: `[0xE0, idx]` plus zero padding
is written and jump-to-block returned when the allocator answers `idx`, and
`NoBlockLeft` is returned when it answers `none`; with the input exhausted,
`[0xE0, 0xFF]` plus zero padding is written and end-of-file returned.  On the
concrete inputs: compressing `[4,4,4,9]` into a 5-byte destination yields
`[0xC0,4,3,0xE0,1]` with a jump to block 1 and `[9]` unconsumed, and
compressing the remaining `[9]` into the next 5-byte destination yields
`[9,0xE0,0xFF,0,0]` and end-of-file. -/
theorem C2_block_boundary (input : List Nat) (cap idx : Nat)
    (hne : input ≠ []) (hlt : cap < 5) (h2 : 2 ≤ cap) :
    compressBlock (some idx) input cap =
        .ok (CMD_BYTE :: idx :: List.replicate (cap - 2) 0, input, .jumpToBlock idx) ∧
    compressBlock none input cap = .error .noBlockLeft ∧
    (∀ nb : Option Nat, compressBlock nb [] cap =
        .ok (CMD_BYTE :: EOF_BYTE :: List.replicate (cap - 2) 0, [], .endOfFile)) ∧
    compressBlock (some 1) [4, 4, 4, 9] 5 =
        .ok ([0xC0, 4, 3, 0xE0, 1], [9], .jumpToBlock 1) ∧
    compressBlock none [9] 5 = .ok ([9, 0xE0, 0xFF, 0, 0], [], .endOfFile) := by
  have h5 : ¬ 5 ≤ cap := by omega
  refine ⟨?_, ?_, ?_, ?_, ?_⟩
  · match input, hne with
    | b :: tail, _ =>
      rw [compressBlock.eq_def]
      simp [h5, Option.elim, h2]
  · match input, hne with
    | b :: tail, _ =>
      rw [compressBlock.eq_def]
      simp [h5, Option.elim]
  · intro nb
    rw [compressBlock.eq_def]
    simp [h2]
  · rw [compressBlock_step_unfold (some 1) 4 [4, 4, 9] 5 (by norm_num)
      (.runLengthEncoding 4 3) [9] (by decide)]
    rw [compressBlock.eq_def]
    norm_num [Option.elim, Compression.bytes]
    constructor
    · decide
    · rfl
  · rw [compressBlock_step_unfold none 9 [] 5 (by norm_num) (.literal 9) [] (by decide)]
    rw [compressBlock.eq_def]
    norm_num [Compression.bytes]
    decide

theorem C2_block_boundary_witness :
    ([9] : List Nat) ≠ [] ∧ (2 : Nat) < 5 ∧ (2 : Nat) ≤ 2 ∧
    (compressBlock (some 7) [9] 2 =
        .ok (CMD_BYTE :: 7 :: List.replicate (2 - 2) 0, [9], .jumpToBlock 7) ∧
      compressBlock none [9] 2 = .error .noBlockLeft ∧
      (∀ nb : Option Nat, compressBlock nb [] 2 =
          .ok (CMD_BYTE :: EOF_BYTE :: List.replicate (2 - 2) 0, [], .endOfFile)) ∧
      compressBlock (some 1) [4, 4, 4, 9] 5 =
          .ok ([0xC0, 4, 3, 0xE0, 1], [9], .jumpToBlock 1) ∧
      compressBlock none [9] 5 = .ok ([9, 0xE0, 0xFF, 0, 0], [], .endOfFile)) :=
  ⟨by decide, by norm_num, by norm_num,
    C2_block_boundary [9] 2 7 (by decide) (by norm_num) (by norm_num)⟩

/-- C3: one pass of `decompress_block` over each input shape: literals are
copied verbatim, `0xC0 0xC0` and `0xE0 0xE0` emit single escaped bytes,
`0xC0 v c` emits `v` repeated `c` times, `0xE0 0xF0 c` and `0xE0 0xF1 c` emit
the default wave/instrument buffer `c` times, `0xE0 0xFF` ends the file and
`0xE0 j` for any other `j` returns jump-to-block `j` without touching the
output accumulated so far. -/
theorem C3_decompress_cases (b v j c : Nat) (rest out : List Nat)
    (hb1 : b ≠ RLE_BYTE) (hb2 : b ≠ CMD_BYTE) (hv : v ≠ RLE_BYTE)
    (hj1 : j ≠ CMD_BYTE) (hj2 : j ≠ DEFAULT_WAVE_BYTE)
    (hj3 : j ≠ DEFAULT_INSTRUMENT_BYTE) (hj4 : j ≠ EOF_BYTE) :
    decompressBlock (b :: rest) out = decompressBlock rest (out ++ [b]) ∧
    decompressBlock (RLE_BYTE :: RLE_BYTE :: rest) out =
      decompressBlock rest (out ++ [RLE_BYTE]) ∧
    decompressBlock (RLE_BYTE :: v :: c :: rest) out =
      decompressBlock rest (out ++ List.replicate c v) ∧
    decompressBlock (CMD_BYTE :: CMD_BYTE :: rest) out =
      decompressBlock rest (out ++ [CMD_BYTE]) ∧
    decompressBlock (CMD_BYTE :: DEFAULT_WAVE_BYTE :: c :: rest) out =
      decompressBlock rest (out ++ (List.replicate c DEFAULT_WAVE).flatten) ∧
    decompressBlock (CMD_BYTE :: DEFAULT_INSTRUMENT_BYTE :: c :: rest) out =
      decompressBlock rest (out ++ (List.replicate c DEFAULT_INSTRUMENT).flatten) ∧
    decompressBlock (CMD_BYTE :: EOF_BYTE :: rest) out = some (out, rest, .endOfFile) ∧
    decompressBlock (CMD_BYTE :: j :: rest) out = some (out, rest, .jumpToBlock j) := by
  have hcr : ¬ (CMD_BYTE = RLE_BYTE) := by decide
  have hwc : ¬ (DEFAULT_WAVE_BYTE = CMD_BYTE) := by decide
  have hic : ¬ (DEFAULT_INSTRUMENT_BYTE = CMD_BYTE) := by decide
  have hiw : ¬ (DEFAULT_INSTRUMENT_BYTE = DEFAULT_WAVE_BYTE) := by decide
  have hec : ¬ (EOF_BYTE = CMD_BYTE) := by decide
  have hew : ¬ (EOF_BYTE = DEFAULT_WAVE_BYTE) := by decide
  have hei : ¬ (EOF_BYTE = DEFAULT_INSTRUMENT_BYTE) := by decide
  refine ⟨?_, ?_, ?_, ?_, ?_, ?_, ?_, ?_⟩
  · rw [decompressBlock.eq_def]
    simp [hb1, hb2]
  · rw [decompressBlock.eq_def]
    simp
  · rw [decompressBlock.eq_def]
    simp [hv]
  · rw [decompressBlock.eq_def]
    simp [hcr]
  · rw [decompressBlock.eq_def]
    simp [hcr, hwc]
  · rw [decompressBlock.eq_def]
    simp [hcr, hic, hiw]
  · rw [decompressBlock.eq_def]
    simp [hcr, hec, hew, hei]
  · rw [decompressBlock.eq_def]
    simp [hcr, hj1, hj2, hj3, hj4]

theorem C3_decompress_cases_witness :
    (7 : Nat) ≠ RLE_BYTE ∧ (7 : Nat) ≠ CMD_BYTE ∧ (5 : Nat) ≠ RLE_BYTE ∧
    (4 : Nat) ≠ CMD_BYTE ∧ (4 : Nat) ≠ DEFAULT_WAVE_BYTE ∧
    (4 : Nat) ≠ DEFAULT_INSTRUMENT_BYTE ∧ (4 : Nat) ≠ EOF_BYTE ∧
    (decompressBlock [7, 0xE0, 0xFF] [1] = decompressBlock [0xE0, 0xFF] [1, 7] ∧
    decompressBlock [0xC0, 0xC0, 0xE0, 0xFF] [1] =
      decompressBlock [0xE0, 0xFF] [1, 0xC0] ∧
    decompressBlock [0xC0, 5, 3, 0xE0, 0xFF] [1] =
      decompressBlock [0xE0, 0xFF] ([1] ++ List.replicate 3 5) ∧
    decompressBlock [0xE0, 0xE0, 0xE0, 0xFF] [1] =
      decompressBlock [0xE0, 0xFF] [1, 0xE0] ∧
    decompressBlock [0xE0, 0xF0, 3, 0xE0, 0xFF] [1] =
      decompressBlock [0xE0, 0xFF] ([1] ++ (List.replicate 3 DEFAULT_WAVE).flatten) ∧
    decompressBlock [0xE0, 0xF1, 3, 0xE0, 0xFF] [1] =
      decompressBlock [0xE0, 0xFF] ([1] ++ (List.replicate 3 DEFAULT_INSTRUMENT).flatten) ∧
    decompressBlock [0xE0, 0xFF, 0xE0, 0xFF] [1] = some ([1], [0xE0, 0xFF], .endOfFile) ∧
    decompressBlock [0xE0, 4, 0xE0, 0xFF] [1] = some ([1], [0xE0, 0xFF], .jumpToBlock 4)) :=
  ⟨by decide, by decide, by decide, by decide, by decide, by decide, by decide,
    C3_decompress_cases 7 5 4 3 [0xE0, 0xFF] [1] (by decide) (by decide) (by decide)
      (by decide) (by decide) (by decide) (by decide)⟩

/-! ## Filesystem model

`fs/filesystem.rs` stores the filesystem as a flat `[u8; 0x200 * 0xC0]` byte
array and accesses it exclusively through region accessors (name table at
`0x000`, version table at `0x0100`, check marker at `0x013E`, active-file byte
at `0x0140`, allocation table at `0x0141..0x0200`, and 512-byte blocks from
offset `0x200` = block 1).  The model keeps those regions as separate fields;
`Fs.headerBytes`/`Fs.bytes` reconstruct the flat image (the check marker is
the constant `CHECK_VALUE`, which both `Filesystem::new` and a successful
`Filesystem::from_reader` guarantee). -/

/-- `Filesystem::FILES_CAPACITY`. -/
def FILES_CAPACITY : Nat := 0x20

/-- `Filesystem::BLOCKS_CAPACITY`. -/
def BLOCKS_CAPACITY : Nat := 0xC0

/-- `Filesystem::BLOCK_LEN`. -/
def BLOCK_LEN : Nat := 0x200

/-- Start of `ALLOC_TABLE_RANGE` (`0x0141..0x0200`). -/
def ALLOC_TABLE_START : Nat := 0x0141

/-- One-past-the-end of `ALLOC_TABLE_RANGE` (`0x0141..0x0200`). -/
def ALLOC_TABLE_STOP : Nat := 0x0200

/-- `UNUSED_BLOCK`: the allocation-table value marking a free block. -/
def UNUSED_BLOCK : Nat := 0xFF

/-- `CHECK_VALUE`: the two filesystem initialization-check bytes. -/
def CHECK_VALUE : List Nat := [0x6A, 0x6B]

/-- `NO_ACTIVE_FILE`. -/
def NO_ACTIVE_FILE : Nat := 0xFF

/-- The filesystem state, split by region.  `alloc` has one byte per usable
data block (blocks 1–191; block 0 holds this very header), `blocks` the 191
data blocks of 512 bytes each. -/
structure Fs where
  names : List Nat
  versions : List Nat
  reserved : List Nat
  active : Nat
  alloc : List Nat
  blocks : List (List Nat)
deriving DecidableEq, Repr

/-- Region sizes of a well-formed filesystem image. -/
def Fs.WF (fs : Fs) : Prop :=
  fs.names.length = 256 ∧ fs.versions.length = 32 ∧ fs.reserved.length = 30 ∧
    fs.alloc.length = 191 ∧ fs.blocks.length = 191 ∧ ∀ b ∈ fs.blocks, b.length = 512

/-- Block 0 of the filesystem image: the metadata header. -/
def Fs.headerBytes (fs : Fs) : List Nat :=
  fs.names ++ (fs.versions ++ (fs.reserved ++ (CHECK_VALUE ++ (fs.active :: fs.alloc))))

/-- The full flat filesystem image (`Filesystem::bytes`). -/
def Fs.bytes (fs : Fs) : List Nat :=
  fs.headerBytes ++ fs.blocks.flatten

/-- `Filesystem::file_name`: the 8 bytes of a slot's name field. -/
def Fs.fileName (fs : Fs) (slot : Nat) : List Nat :=
  (fs.names.drop (8 * slot)).take 8

/-- `Filesystem::is_file_in_use`: does any allocation-table entry name `slot`? -/
def Fs.isFileInUse (fs : Fs) (slot : Nat) : Bool :=
  fs.alloc.any (· == slot)

/-- `Filesystem::blocks_used_count`. -/
def Fs.blocksUsedCount (fs : Fs) : Nat :=
  (fs.alloc.filter (fun b => b != UNUSED_BLOCK)).length

/-- The bytes of data block `b` (1-based, matching `Filesystem::block` for
data blocks). -/
def Fs.getBlock (fs : Fs) (b : Nat) : List Nat :=
  fs.blocks.getD (b - 1) []

/-- Overwrite a region of a byte list (`copy_from_slice` on a subrange). -/
def writeRegion (l : List Nat) (off : Nat) (v : List Nat) : List Nat :=
  l.take off ++ (v ++ l.drop (off + v.length))

/-- `Filesystem::file_blocks`: the 1-based indices of the blocks owned by
`slot`, in allocation-table scan order (`i` is the scan offset). -/
def ownedAux (slot : Nat) : List Nat → Nat → List Nat
  | [], _ => []
  | a :: rest, i =>
    if a = slot then (i + 1) :: ownedAux slot rest (i + 1) else ownedAux slot rest (i + 1)

/-- The candidate free-block list of `Filesystem::insert_file`: blocks whose
entry is `UNUSED_BLOCK` or already owned by `slot`, in scan order. -/
def candidatesAux (slot : Nat) : List Nat → Nat → List Nat
  | [], _ => []
  | a :: rest, i =>
    if a = UNUSED_BLOCK ∨ a = slot then (i + 1) :: candidatesAux slot rest (i + 1)
    else candidatesAux slot rest (i + 1)

/-- The `find_map` in `Entry::decompress`: position of the first
allocation-table entry owning `slot`. -/
def firstOwnedAux (slot : Nat) : List Nat → Nat → Option Nat
  | [], _ => none
  | a :: rest, i => if a = slot then some i else firstOwnedAux slot rest (i + 1)

/-- The parts of an `LsdSng` (name bytes as stored, version, flat blocks). -/
structure LsdSngM where
  name : List Nat
  version : Nat
  blocks : List Nat
deriving DecidableEq, Repr

/-- Errors of `Name::<N>::from_bytes` (`name::FromBytesError`). -/
inductive NameFromBytesError where
  | tooLong
  | invalidByte (byte index : Nat)
deriving DecidableEq, Repr

/-- `Name::is_byte_allowed`: capitals, digits, space or the lightning glyph. -/
def nameByteAllowed (byte : Nat) : Bool :=
  (65 ≤ byte && byte ≤ 90) || (48 ≤ byte && byte ≤ 57) || byte == 32 || byte == 120

/-- The scanning loop of `Name::from_bytes`: keep allowed bytes, stop at the
first zero, reject the first other byte. -/
def nameScan : List Nat → Nat → Except NameFromBytesError (List Nat)
  | [], _ => .ok []
  | b :: rest, i =>
    if nameByteAllowed b then
      match nameScan rest (i + 1) with
      | .ok kept => .ok (b :: kept)
      | .error e => .error e
    else if b = 0 then .ok []
    else .error (.invalidByte b i)

/-- `Name::<N>::from_bytes`: length check, scan, and null-padded result. -/
def nameFromBytes (N : Nat) (bytes : List Nat) : Except NameFromBytesError (List Nat) :=
  if N < bytes.length then .error .tooLong
  else
    match nameScan bytes 0 with
    | .ok kept => .ok (kept ++ List.replicate (N - kept.length) 0)
    | .error e => .error e

/-- `Filesystem::remove_file`: capture name (note the `unwrap_or_default`!),
version and owned block bytes in scan order, then zero the name field and
version byte, zero each owned block and free its allocation-table entry. -/
def Fs.removeFile (fs : Fs) (slot : Nat) : Fs × Option LsdSngM :=
  if fs.isFileInUse slot then
    let nm := (nameFromBytes 8 (fs.fileName slot)).toOption.getD (List.replicate 8 0)
    let ver := fs.versions.getD slot 0
    let obs := ownedAux slot fs.alloc 0
    let blocksOut := (obs.map fs.getBlock).flatten
    let fs1 : Fs :=
      { fs with
        names := writeRegion fs.names (8 * slot) (List.replicate 8 0)
        versions := fs.versions.set slot 0
        alloc := obs.foldl (fun a i => a.set (i - 1) UNUSED_BLOCK) fs.alloc
        blocks := obs.foldl (fun bl i => bl.set (i - 1) (List.replicate 512 0)) fs.blocks }
    (fs1, some ⟨nm, ver, blocksOut⟩)
  else (fs, none)

/-- The compression loop of `Filesystem::insert_file`: pull block indices
from the candidate list (`next()`), let `compress_block` peek at the following
candidate, and collect `(index, block)` pairs until end-of-file. -/
def compressAll (cands : List Nat) (input : List Nat) :
    Except CompressError (List (Nat × List Nat)) :=
  match cands with
  | [] => .error .noBlockLeft
  | i :: rest =>
    match compressBlock rest.head? input 512 with
    | .error e => .error e
    | .ok (blk, _, .endOfFile) => .ok [(i, blk)]
    | .ok (blk, input2, .jumpToBlock _) =>
      match compressAll rest input2 with
      | .error e => .error e
      | .ok pairs => .ok ((i, blk) :: pairs)

/-- `Filesystem::insert_file`: compress into scratch first (possibly failing
with `NoBlockLeft`, leaving the filesystem untouched — mutation happens only
after the whole loop succeeded), then remove the old occupant, write name and
version, and store each block while pointing its allocation-table entry at
`slot`. -/
def Fs.insertFile (fs : Fs) (slot : Nat) (name : List Nat) (version : Nat)
    (song : List Nat) : Except CompressError (Fs × Option LsdSngM) :=
  match compressAll (candidatesAux slot fs.alloc 0) song with
  | .error e => .error e
  | .ok pairs =>
    let rm := fs.removeFile slot
    let fs2 : Fs :=
      { rm.1 with
        names := writeRegion rm.1.names (8 * slot) name
        versions := rm.1.versions.set slot version }
    let fs3 := pairs.foldl
      (fun f p =>
        { f with
          alloc := f.alloc.set (p.1 - 1) slot
          blocks := f.blocks.set (p.1 - 1) p.2 }) fs2
    .ok (fs3, rm.2)

/-- The jump-following loop of `Filesystem::decompress`, reading from the
flat filesystem image and re-seeking to `block_range(block).start` on every
jump; at end-of-file the writer must sit exactly at `SongMemory::LEN` (the
`assert_eq!`) and the output is revalidated by `SongMemory::from_reader`.
The fuel only bounds the recursion so the model is total: the Rust loop has
no bound and diverges on a cyclic jump chain, while every chain this codec
writes is strictly ascending through at most 191 blocks, so fuel 192 never
binds on the runs verified here. -/
def fsDecompressLoop (bytes : List Nat) : Nat → Nat → List Nat → Option (List Nat)
  | 0, _, _ => none
  | fuel + 1, b, out =>
    match decompressBlock (bytes.drop (512 * b)) out with
    | none => none
    | some (out2, _, .endOfFile) =>
      if out2.length = 0x8000 then (if songCheck out2 then some out2 else none) else none
    | some (out2, _, .jumpToBlock b2) => fsDecompressLoop bytes fuel b2 out2

/-- `Filesystem::decompress` starting at data block `b`. -/
def Fs.decompressFrom (fs : Fs) (b : Nat) : Option (List Nat) :=
  fsDecompressLoop fs.bytes 192 b []

/-- `Entry::decompress`: find the first allocation-table entry owning the
slot, apply the `+1` offset from table index to storage block (block 0 is the
reserved metadata block), and decompress from there (`none` models the
`unwrap` panic when the slot owns nothing). -/
def Fs.entryDecompress (fs : Fs) (slot : Nat) : Option (List Nat) :=
  match firstOwnedAux slot fs.alloc 0 with
  | none => none
  | some p => fs.decompressFrom (p + 1)

/-- `Filesystem::new`: empty but valid — all blocks free. -/
def emptyFs : Fs :=
  { names := List.replicate 256 0
    versions := List.replicate 32 0
    reserved := List.replicate 30 0
    active := NO_ACTIVE_FILE
    alloc := List.replicate 191 UNUSED_BLOCK
    blocks := List.replicate 191 (List.replicate 512 0) }

theorem getD_replicate (n a i d : Nat) :
    (List.replicate n a).getD i d = if i < n then a else d := by
  by_cases h : i < n
  · rw [if_pos h, List.getD_eq_getElem _ _ (by simpa using h), List.getElem_replicate]
  · rw [if_neg h, List.getD_eq_default]
    simp
    omega

theorem songCheck_replicate_zero (n : Nat) : songCheck (List.replicate n 0) = false := by
  simp [songCheck, songMarkerAt, getD_replicate]

/-- C8: `SongMemory::from_bytes` succeeds exactly on 32768-byte inputs with
the `0x72 0x62` marker at at least one of the offsets `0x1E78`, `0x3E80`,
`0x7FF0` (that disjunction is `songCheck`); any other length gives
`IncorrectSize`, and a 32768-byte input with no marker gives
`InitializationCheckIncorrect`. -/
theorem C8_song_from_bytes (bytes good bad short : List Nat)
    (hg1 : good.length = 0x8000) (hg2 : songCheck good = true)
    (hb1 : bad.length = 0x8000) (hb2 : songCheck bad = false)
    (hs : short.length ≠ 0x8000) :
    ((songFromBytes bytes).isOk = true ↔
      (bytes.length = 0x8000 ∧ songCheck bytes = true)) ∧
    songFromBytes good = .ok good ∧
    songFromBytes short = .error .incorrectSize ∧
    songFromBytes bad = .error .initializationCheckIncorrect := by
  refine ⟨?_, ?_, ?_, ?_⟩
  · rw [songFromBytes]
    by_cases hl : bytes.length = 0x8000
    · by_cases hc : songCheck bytes
      · simp [hl, hc, Except.isOk, Except.toBool]
      · simp [hl, Except.isOk, Except.toBool]
        simp at hc
        simp [hc]
    · simp [hl, Except.isOk, Except.toBool]
  · rw [songFromBytes, if_neg (by simp [hg1]), hg2]
    rfl
  · rw [songFromBytes, if_pos hs]
  · rw [songFromBytes, if_neg (by simp [hb1]), hb2]
    rfl

theorem C8_song_from_bytes_witness :
    witnessSong.length = 0x8000 ∧ songCheck witnessSong = true ∧
    (List.replicate 0x8000 0).length = 0x8000 ∧
    songCheck (List.replicate 0x8000 0) = false ∧
    ([] : List Nat).length ≠ 0x8000 ∧
    (((songFromBytes witnessSong).isOk = true ↔
        (witnessSong.length = 0x8000 ∧ songCheck witnessSong = true)) ∧
      songFromBytes witnessSong = .ok witnessSong ∧
      songFromBytes [] = .error .incorrectSize ∧
      songFromBytes (List.replicate 0x8000 0) = .error .initializationCheckIncorrect) :=
  ⟨witnessSong_length, witnessSong_check, List.length_replicate 0x8000 0,
    songCheck_replicate_zero 0x8000, by decide,
    C8_song_from_bytes witnessSong witnessSong (List.replicate 0x8000 0) []
      witnessSong_length witnessSong_check (List.length_replicate 0x8000 0)
      (songCheck_replicate_zero 0x8000) (by decide)⟩

theorem nameScan_append_allowed (pre : List Nat)
    (hpre : ∀ x ∈ pre, nameByteAllowed x = true) (rest : List Nat) (i : Nat) :
    nameScan (pre ++ rest) i =
      match nameScan rest (i + pre.length) with
      | .ok kept => .ok (pre ++ kept)
      | .error e => .error e := by
  induction pre generalizing i with
  | nil =>
    simp only [List.nil_append, List.length_nil, Nat.add_zero]
    cases h : nameScan rest i <;> simp [h]
  | cons a pre ih =>
    have ha : nameByteAllowed a = true := hpre a (by simp)
    have harith : i + 1 + pre.length = i + (pre.length + 1) := by omega
    rw [List.cons_append]
    rw [nameScan.eq_def]
    simp only [ha, if_true]
    rw [ih (fun x hx => hpre x (by simp [hx])) (i + 1), harith]
    cases h : nameScan rest (i + (pre.length + 1)) <;> simp [h]

/-- C9: `Name::<N>::from_bytes` fails `TooLong` beyond `N` bytes; within
length it fails `InvalidByte{byte,index}` at the first disallowed non-zero
byte before any zero; and it succeeds whenever all bytes before the first
zero are allowed, ignoring everything after that zero.  Concretely,
`from_bytes(b"A!")` fails at index 1 and a 9-byte slice into `Name<8>` is too
long. -/
theorem C9_name_validation (N : Nat) (long pre post pre2 post2 pre3 : List Nat) (b : Nat)
    (hlong : N < long.length)
    (hfit : (pre ++ b :: post).length ≤ N)
    (hpre : ∀ x ∈ pre, nameByteAllowed x = true)
    (hb : nameByteAllowed b = false) (hb0 : b ≠ 0)
    (hfit2 : (pre2 ++ 0 :: post2).length ≤ N)
    (hpre2 : ∀ x ∈ pre2, nameByteAllowed x = true)
    (hfit3 : pre3.length ≤ N)
    (hpre3 : ∀ x ∈ pre3, nameByteAllowed x = true) :
    nameFromBytes N long = .error .tooLong ∧
    nameFromBytes N (pre ++ b :: post) = .error (.invalidByte b pre.length) ∧
    nameFromBytes N (pre2 ++ 0 :: post2) =
      .ok (pre2 ++ List.replicate (N - pre2.length) 0) ∧
    nameFromBytes N pre3 = .ok (pre3 ++ List.replicate (N - pre3.length) 0) ∧
    nameFromBytes 8 [65, 33] = .error (.invalidByte 33 1) ∧
    nameFromBytes 8 [49, 50, 51, 52, 53, 54, 55, 56, 57] = .error .tooLong := by
  refine ⟨?_, ?_, ?_, ?_, rfl, rfl⟩
  · rw [nameFromBytes, if_pos hlong]
  · rw [nameFromBytes, if_neg (by omega)]
    rw [nameScan_append_allowed pre hpre]
    rw [nameScan.eq_def]
    simp [hb, hb0]
  · rw [nameFromBytes, if_neg (by omega)]
    rw [nameScan_append_allowed pre2 hpre2]
    rw [nameScan.eq_def]
    have h0 : nameByteAllowed 0 = false := by decide
    simp [h0]
  · rw [nameFromBytes, if_neg (by omega)]
    have := nameScan_append_allowed pre3 hpre3 [] 0
    rw [List.append_nil] at this
    rw [this]
    simp [nameScan]

theorem C9_name_validation_witness :
    (8 : Nat) < ([49, 50, 51, 52, 53, 54, 55, 56, 57] : List Nat).length ∧
    (([65] ++ 33 :: []) : List Nat).length ≤ 8 ∧
    (∀ x ∈ ([65] : List Nat), nameByteAllowed x = true) ∧
    nameByteAllowed 33 = false ∧ (33 : Nat) ≠ 0 ∧
    (([65] ++ 0 :: [33]) : List Nat).length ≤ 8 ∧
    (∀ x ∈ ([65] : List Nat), nameByteAllowed x = true) ∧
    ([72, 73] : List Nat).length ≤ 8 ∧
    (∀ x ∈ ([72, 73] : List Nat), nameByteAllowed x = true) ∧
    (nameFromBytes 8 [49, 50, 51, 52, 53, 54, 55, 56, 57] = .error .tooLong ∧
      nameFromBytes 8 ([65] ++ 33 :: []) = .error (.invalidByte 33 1) ∧
      nameFromBytes 8 ([65] ++ 0 :: [33]) =
        .ok ([65] ++ List.replicate (8 - ([65] : List Nat).length) 0) ∧
      nameFromBytes 8 [72, 73] =
        .ok ([72, 73] ++ List.replicate (8 - ([72, 73] : List Nat).length) 0) ∧
      nameFromBytes 8 [65, 33] = .error (.invalidByte 33 1) ∧
      nameFromBytes 8 [49, 50, 51, 52, 53, 54, 55, 56, 57] = .error .tooLong) :=
  ⟨by decide, by decide, by decide, by decide, by decide, by decide, by decide,
    by decide, by decide,
    C9_name_validation 8 [49, 50, 51, 52, 53, 54, 55, 56, 57] [65] [] [65] [33] [72, 73] 33
      (by decide) (by decide) (by decide) (by decide) (by decide) (by decide) (by decide)
      (by decide) (by decide)⟩

/-- A filesystem whose slot 0 is in use but whose stored name field starts
with the invalid byte `33` (`'!'`). -/
def badNameFs : Fs :=
  { names := 33 :: List.replicate 255 0
    versions := List.replicate 32 0
    reserved := List.replicate 30 0
    active := NO_ACTIVE_FILE
    alloc := 0 :: List.replicate 190 UNUSED_BLOCK
    blocks := List.replicate 191 (List.replicate 512 0) }

/-- C10 counterexample: slot 0 of `badNameFs` is in use, its stored name does
not validate, yet `remove_file` succeeds and hands back the *default* (empty)
name instead of surfacing the validation error — the `unwrap_or_default` in
`Filesystem::remove_file`. -/
theorem C10_counterexample :
    nameFromBytes 8 (badNameFs.fileName 0) = .error (.invalidByte 33 0) ∧
    badNameFs.isFileInUse 0 = true ∧
    ((badNameFs.removeFile 0).2.map LsdSngM.name) = some (List.replicate 8 0) := by
  refine ⟨rfl, by decide, ?_⟩
  rw [Fs.removeFile, if_pos (by decide)]
  simp only [Option.map_some]
  decide

/-- C10 amended: whenever a slot is in use but its stored 8-byte name field
fails `Name::from_bytes`, `remove_file` does not propagate the error — it
substitutes the default (all-zero) name in the returned export (and
`insert_file` returns that same substituted export as the previous
occupant). -/
theorem C10_remove_substitutes_default_name (fs : Fs) (slot : Nat)
    (e : NameFromBytesError)
    (hiu : fs.isFileInUse slot = true)
    (herr : nameFromBytes 8 (fs.fileName slot) = .error e) :
    ∃ lsd, (fs.removeFile slot).2 = some lsd ∧ lsd.name = List.replicate 8 0 := by
  rw [Fs.removeFile, if_pos hiu]
  refine ⟨_, rfl, ?_⟩
  simp [herr, Except.toOption]

theorem C10_remove_substitutes_default_name_witness :
    badNameFs.isFileInUse 0 = true ∧
    nameFromBytes 8 (badNameFs.fileName 0) = .error (.invalidByte 33 0) ∧
    ∃ lsd, (badNameFs.removeFile 0).2 = some lsd ∧ lsd.name = List.replicate 8 0 :=
  ⟨by decide, rfl,
    C10_remove_substitutes_default_name badNameFs 0 (.invalidByte 33 0) (by decide) rfl⟩

/-- C7 counterexample: the allocation table of `fs/filesystem.rs` is the
range `0x141..0x200`, which is 191 bytes, not the 190 bytes the claim
states. -/
theorem C7_alloc_table_size_counterexample :
    ¬ (ALLOC_TABLE_STOP - ALLOC_TABLE_START = 190) := by decide

/-- C7 amended: the allocation table is exactly 191 bytes at offsets
`0x141`–`0x1FF` of the filesystem image (one byte per usable data block —
there are 191 data blocks, block 0 being the metadata header), and under the
region layout each image byte in that range is the corresponding
allocation-table entry. -/
theorem C7_alloc_table_layout (fs : Fs) (hwf : fs.WF) :
    ALLOC_TABLE_STOP - ALLOC_TABLE_START = 191 ∧
    fs.alloc.length = 191 ∧
    fs.blocks.length = BLOCKS_CAPACITY - 1 ∧
    fs.headerBytes.length = BLOCK_LEN ∧
    (∀ p, ALLOC_TABLE_START ≤ p → p < ALLOC_TABLE_STOP →
      fs.bytes.getD p 0 = fs.alloc.getD (p - ALLOC_TABLE_START) 0) := by
  obtain ⟨hn, hv, hr, ha, hb, _⟩ := hwf
  have hhdr : fs.headerBytes.length = BLOCK_LEN := by
    rw [Fs.headerBytes]
    simp [hn, hv, hr, ha, CHECK_VALUE, BLOCK_LEN]
  refine ⟨by decide, ha, by rw [hb]; decide, hhdr, ?_⟩
  intro p hp1 hp2
  rw [Fs.bytes, List.getD_append _ _ _ _ (by
    rw [hhdr]
    simp only [ALLOC_TABLE_STOP, BLOCK_LEN] at hp2 ⊢
    omega)]
  rw [Fs.headerBytes]
  rw [List.getD_append_right _ _ _ _ (by
    rw [hn]
    simp only [ALLOC_TABLE_START] at hp1
    omega), hn]
  rw [List.getD_append_right _ _ _ _ (by
    rw [hv]
    simp only [ALLOC_TABLE_START] at hp1
    omega), hv]
  rw [List.getD_append_right _ _ _ _ (by
    rw [hr]
    simp only [ALLOC_TABLE_START] at hp1
    omega), hr]
  rw [List.getD_append_right _ _ _ _ (by
    simp only [CHECK_VALUE, ALLOC_TABLE_START] at hp1 ⊢
    simp
    omega)]
  have hidx : p - 256 - 32 - 30 - CHECK_VALUE.length = (p - ALLOC_TABLE_START) + 1 := by
    simp only [CHECK_VALUE, ALLOC_TABLE_START] at hp1 ⊢
    simp
    omega
  rw [hidx, List.getD_cons_succ]

theorem C7_alloc_table_layout_witness :
    emptyFs.WF ∧
    (ALLOC_TABLE_STOP - ALLOC_TABLE_START = 191 ∧
      emptyFs.alloc.length = 191 ∧
      emptyFs.blocks.length = BLOCKS_CAPACITY - 1 ∧
      emptyFs.headerBytes.length = BLOCK_LEN ∧
      (∀ p, ALLOC_TABLE_START ≤ p → p < ALLOC_TABLE_STOP →
        emptyFs.bytes.getD p 0 = emptyFs.alloc.getD (p - ALLOC_TABLE_START) 0)) :=
  have hwf : emptyFs.WF := by
    refine ⟨List.length_replicate _ _, List.length_replicate _ _, List.length_replicate _ _,
      List.length_replicate _ _, List.length_replicate _ _, ?_⟩
    intro b hb
    have hb2 : b ∈ List.replicate 191 (List.replicate 512 0) := hb
    rw [List.eq_of_mem_replicate hb2]
    exact List.length_replicate _ _
  ⟨hwf, C7_alloc_table_layout emptyFs hwf⟩

/-- The number of 512-byte blocks the compression of `input` occupies
(independent of which block indices the allocator hands out; computed with a
dummy allocator). -/
def blocksNeeded (input : List Nat) : Nat :=
  match h : compressBlock (some 0) input 512 with
  | .ok (_, rest, .jumpToBlock _) => 1 + blocksNeeded rest
  | .ok (_, _, .endOfFile) => 1
  | .error _ => 1
termination_by input.length
decreasing_by exact compressBlock_jump_lt h (by norm_num)

theorem blocksNeeded_jump {input blk rest : List Nat} {t : Nat}
    (h : compressBlock (some 0) input 512 = .ok (blk, rest, .jumpToBlock t)) :
    blocksNeeded input = 1 + blocksNeeded rest := by
  rw [blocksNeeded.eq_def]
  split
  · rename_i blk2 rest2 t2 heq
    rw [h] at heq
    cases heq
    rfl
  · rename_i blk2 rest2 heq
    rw [h] at heq
    simp at heq
  · rename_i e heq
    rw [h] at heq
    simp at heq

theorem blocksNeeded_eof {input blk rest : List Nat}
    (h : compressBlock (some 0) input 512 = .ok (blk, rest, .endOfFile)) :
    blocksNeeded input = 1 := by
  rw [blocksNeeded.eq_def]
  split
  · rename_i blk2 rest2 t2 heq
    rw [h] at heq
    simp at heq
  · rfl
  · rfl

theorem blocksNeeded_pos (input : List Nat) : 1 ≤ blocksNeeded input := by
  rw [blocksNeeded.eq_def]
  split <;> omega


/-- Every block after the first stands for at least 254 consumed input
bytes. -/
theorem blocksNeeded_le (input : List Nat) :
    254 * (blocksNeeded input - 1) ≤ input.length := by
  induction input using blocksNeeded.induct with
  | case1 input blk rest t heq ih =>
    rw [blocksNeeded_jump heq]
    obtain ⟨consumed, pad, hsplit, _, hjump, _, _⟩ :=
      compressBlock_spec (some 0) input 512 heq
    obtain ⟨hcap, _⟩ := hjump t rfl
    have hpos := blocksNeeded_pos rest
    have hlen : input.length = consumed.length + rest.length := by
      rw [hsplit]
      simp
    omega
  | case2 input blk rest heq =>
    rw [blocksNeeded_eof heq]
    simp
  | case3 input e heq =>
    have h1 : blocksNeeded input = 1 := by
      rw [blocksNeeded.eq_def]
      split
      · rename_i blk2 rest2 t2 heq2
        rw [heq] at heq2
        simp at heq2
      · rfl
      · rfl
    omega

/-- The shape of a `compress_block` run does not depend on the allocator:
either every allocator gives the same end-of-file block, or the input is cut
at the same point for every allocator, `none` failing with `NoBlockLeft` and
`some t` jumping to `t`. -/
theorem compressBlock_nb_rel :
    ∀ (n : Nat) (input : List Nat), input.length ≤ n → ∀ (cap : Nat), 2 ≤ cap →
      (∃ blk, ∀ nb : Option Nat, compressBlock nb input cap = .ok (blk, [], .endOfFile)) ∨
      (∃ rest, compressBlock none input cap = .error .noBlockLeft ∧
        ∀ t : Nat, ∃ blk, compressBlock (some t) input cap = .ok (blk, rest, .jumpToBlock t)) := by
  intro n
  induction n with
  | zero =>
    intro input hlen cap h2
    have hnil : input = [] := List.eq_nil_of_length_eq_zero (by omega)
    subst hnil
    left
    refine ⟨CMD_BYTE :: EOF_BYTE :: List.replicate (cap - 2) 0, fun nb => ?_⟩
    rw [compressBlock.eq_def]
    simp [h2]
  | succ n ih =>
    intro input hlen cap h2
    match input with
    | [] =>
      left
      refine ⟨CMD_BYTE :: EOF_BYTE :: List.replicate (cap - 2) 0, fun nb => ?_⟩
      rw [compressBlock.eq_def]
      simp [h2]
    | b :: tail =>
      by_cases h5 : 5 ≤ cap
      · have hs := @compressStep_isSome (b :: tail) (by simp)
        rw [Option.isSome_iff_exists] at hs
        obtain ⟨⟨c, rest1⟩, hstep⟩ := hs
        have hlt := compressStep_length_lt hstep
        obtain ⟨_, _, _, hb1, hb3⟩ := compressStep_spec hstep
        have hcap2 : 2 ≤ cap - c.bytes.length := by omega
        rcases ih rest1 (by omega) (cap - c.bytes.length) hcap2 with
          ⟨blk', hall⟩ | ⟨rest2, hnone, hsome⟩
        · left
          refine ⟨c.bytes ++ blk', fun nb => ?_⟩
          rw [compressBlock_step_unfold nb b tail cap h5 c rest1 hstep, hall nb]
        · right
          refine ⟨rest2, ?_, ?_⟩
          · rw [compressBlock_step_unfold none b tail cap h5 c rest1 hstep, hnone]
          · intro t
            obtain ⟨blk', hb⟩ := hsome t
            refine ⟨c.bytes ++ blk', ?_⟩
            rw [compressBlock_step_unfold (some t) b tail cap h5 c rest1 hstep, hb]
      · right
        refine ⟨b :: tail, ?_, ?_⟩
        · rw [compressBlock.eq_def]
          simp [h5, Option.elim]
        · intro t
          refine ⟨CMD_BYTE :: t :: List.replicate (cap - 2) 0, ?_⟩
          rw [compressBlock.eq_def]
          simp [h5, Option.elim, h2]

/-- The compression loop of `insert_file` succeeds iff the candidate list
has at least `blocksNeeded` entries, and fails with `NoBlockLeft`
otherwise. -/
theorem compressAll_blocks (cands : List Nat) (input : List Nat) :
    (cands.length < blocksNeeded input → compressAll cands input = .error .noBlockLeft) ∧
    (blocksNeeded input ≤ cands.length →
      ∃ pairs, compressAll cands input = .ok pairs ∧ pairs.length = blocksNeeded input) := by
  induction cands generalizing input with
  | nil =>
    constructor
    · intro _
      rfl
    · intro h
      have := blocksNeeded_pos input
      simp at h
      omega
  | cons i rest ih =>
    rcases compressBlock_nb_rel input.length input le_rfl 512 (by norm_num) with
      ⟨blk, hall⟩ | ⟨rest2, hnone, hsome⟩
    · have hbn : blocksNeeded input = 1 := blocksNeeded_eof (hall (some 0))
      constructor
      · intro hlt
        rw [hbn] at hlt
        simp at hlt
      · intro _
        refine ⟨[(i, blk)], ?_, by rw [hbn]; rfl⟩
        unfold compressAll
        rw [hall rest.head?]
    · have hbn : blocksNeeded input = 1 + blocksNeeded rest2 := by
        obtain ⟨blk0, h0⟩ := hsome 0
        exact blocksNeeded_jump h0
      match rest with
      | [] =>
        constructor
        · intro _
          unfold compressAll
          rw [show ([] : List Nat).head? = none from rfl, hnone]
        · intro hge
          have := blocksNeeded_pos rest2
          simp at hge
          omega
      | j :: rest' =>
        obtain ⟨blkj, hj⟩ := hsome j
        constructor
        · intro hlt
          unfold compressAll
          rw [show (j :: rest').head? = some j from rfl, hj]
          dsimp only
          rw [((ih rest2).1 (by simp at hlt ⊢; omega))]
        · intro hge
          obtain ⟨pairs, hok, hplen⟩ := (ih rest2).2 (by simp at hge ⊢; omega)
          refine ⟨(i, blkj) :: pairs, ?_, by simp [hplen, hbn]; omega⟩
          unfold compressAll
          rw [show (j :: rest').head? = some j from rfl, hj]
          dsimp only
          rw [hok]

/-- C4: when the compression of `song` needs more blocks than the candidate
list (blocks unused or already owned by `slot`) provides, `insert_file` fails
with `NoBlockLeft`.  In this purely functional model no new filesystem state
is produced on this path at all — mirroring the source, where all compression
work happens in scratch memory and the `?` on `compress_block` propagates the
error before any write to `self`, leaving every byte of the filesystem
(allocation table, names, versions, data blocks, `blocks_used_count()`)
unchanged. -/
theorem C4_insert_no_block_left (fs : Fs) (slot : Nat) (name : List Nat) (version : Nat)
    (song : List Nat)
    (hneed : (candidatesAux slot fs.alloc 0).length < blocksNeeded song) :
    fs.insertFile slot name version song = .error .noBlockLeft := by
  unfold Fs.insertFile
  rw [(compressAll_blocks (candidatesAux slot fs.alloc 0) song).1 hneed]

theorem candidatesAux_replicate_other (slot v : Nat) (hv1 : v ≠ UNUSED_BLOCK)
    (hv2 : v ≠ slot) : ∀ (n i : Nat), candidatesAux slot (List.replicate n v) i = [] := by
  intro n
  induction n with
  | zero => intro i; rfl
  | succ n ih =>
    intro i
    rw [List.replicate_succ, candidatesAux]
    simp only [hv1, hv2, or_self, if_false]
    exact ih (i + 1)

/-- A filesystem with every block owned by slot 5. -/
def fullFs : Fs :=
  { emptyFs with alloc := List.replicate 191 5 }

theorem C4_insert_no_block_left_witness :
    (candidatesAux 0 fullFs.alloc 0).length < blocksNeeded witnessSong ∧
    fullFs.insertFile 0 (List.replicate 8 0) 0 witnessSong = .error .noBlockLeft :=
  have hneed : (candidatesAux 0 fullFs.alloc 0).length < blocksNeeded witnessSong := by
    have hc : candidatesAux 0 fullFs.alloc 0 = [] :=
      candidatesAux_replicate_other 0 5 (by decide) (by decide) 191 0
    rw [hc]
    exact blocksNeeded_pos witnessSong
  ⟨hneed, C4_insert_no_block_left fullFs 0 (List.replicate 8 0) 0 witnessSong hneed⟩

/-- Everything a successful `insert_file` compression loop guarantees: the
pairs use the first candidates in order, every block is 512 bytes, and — for
any byte image `F` that stores each pair's block at offset `512 * index` —
following the jump chain from the first index reproduces the compressed
input. -/
theorem compressAll_spec (cands : List Nat) :
    ∀ (input : List Nat) (pairs : List (Nat × List Nat)),
      compressAll cands input = .ok pairs →
      pairs.map Prod.fst = cands.take pairs.length ∧
      1 ≤ pairs.length ∧
      (∀ p ∈ pairs, p.2.length = 512) ∧
      (∀ (F : List Nat) (fuel : Nat) (out : List Nat) (i0 : Nat) (blk0 : List Nat)
          (pairs2 : List (Nat × List Nat)),
        pairs = (i0, blk0) :: pairs2 →
        pairs.length ≤ fuel →
        (∀ x ∈ cands, x ≠ CMD_BYTE ∧ x ≠ DEFAULT_WAVE_BYTE ∧
          x ≠ DEFAULT_INSTRUMENT_BYTE ∧ x ≠ EOF_BYTE) →
        (∀ p ∈ pairs, ∃ s, F.drop (512 * p.1) = p.2 ++ s) →
        fsDecompressLoop F fuel i0 out =
          (if (out ++ input).length = 0x8000 then
            (if songCheck (out ++ input) then some (out ++ input) else none)
          else none)) := by
  induction cands with
  | nil =>
    intro input pairs hok
    simp [compressAll] at hok
  | cons i rest ih =>
    intro input pairs hok
    unfold compressAll at hok
    split at hok
    · simp at hok
    · rename_i blk x heq
      cases hok
      obtain ⟨consumed, pad, hsplit, hlen, hjump, heof, hdec⟩ :=
        compressBlock_spec rest.head? input 512 heq
      have hx : x = [] := heof rfl
      subst hx
      rw [List.append_nil] at hsplit
      subst hsplit
      refine ⟨by simp, by simp, by simp [hlen], ?_⟩
      intro F fuel out i0 blk0 pairs2 hpeq hfuel hgood hstore
      simp only [List.cons.injEq, Prod.mk.injEq] at hpeq
      obtain ⟨⟨rfl, rfl⟩, rfl⟩ := hpeq
      match fuel, hfuel with
      | f + 1, _ =>
        rw [fsDecompressLoop]
        obtain ⟨s, hs⟩ := hstore (i, blk) (by simp)
        simp only at hs
        rw [hs, hdec s out trivial]
    · rename_i blk input2 t heq
      split at hok
      · simp at hok
      · rename_i pairs' hok2
        cases hok
        obtain ⟨consumed, pad, hsplit, hlen, hjump, heof, hdec⟩ :=
          compressBlock_spec rest.head? input 512 heq
        obtain ⟨hcap, hhead⟩ := hjump t rfl
        obtain ⟨hmap', hlen1', hblen', hdec'⟩ := ih input2 pairs' hok2
        have hrest : rest = t :: rest.tail := by
          cases rest with
          | nil => simp at hhead
          | cons a r =>
            simp at hhead
            simp [hhead]
        constructor
        · simp [hmap', List.take_succ_cons]
        constructor
        · simp
        constructor
        · intro p hp
          simp only [List.mem_cons] at hp
          rcases hp with rfl | hp
          · exact hlen
          · exact hblen' p hp
        · intro F fuel out i0 blk0 pairs2 hpeq hfuel hgood hstore
          simp only [List.cons.injEq, Prod.mk.injEq] at hpeq
          obtain ⟨⟨rfl, rfl⟩, rfl⟩ := hpeq
          match pairs', hmap', hdec', hlen1' with
          | (i1, blk1) :: pairs'', hmap', hdec', _ =>
            have hi1 : i1 = t := by
              have := hmap'
              rw [hrest] at this
              simp [List.take_succ_cons] at this
              exact this.1
            match fuel, hfuel with
            | f + 1, hfuel =>
              rw [fsDecompressLoop]
              obtain ⟨s, hs⟩ := hstore (i, blk) (by simp)
              simp only at hs
              have hgt : GoodEnd (.jumpToBlock t) := by
                have hmem : t ∈ i :: rest := by
                  rw [hrest]
                  simp
                obtain ⟨g1, g2, g3, g4⟩ := hgood t hmem
                exact ⟨g1, g2, g3, g4⟩
              subst hi1
              rw [hs, hdec s out hgt]
              simp only
              rw [hdec' F f (out ++ consumed) i1 blk1 pairs'' rfl (by simp at hfuel ⊢; omega)
                (fun x hx => hgood x (by simp [hx])) (fun p hp => hstore p (by simp [hp]))]
              rw [List.append_assoc, ← hsplit]

theorem getD_set_gen {α : Type} (l : List α) (i j : Nat) (a d : α) :
    (l.set i a).getD j d = if i = j ∧ j < l.length then a else l.getD j d := by
  rw [List.getD_eq_getElem?_getD, List.getElem?_set, List.getD_eq_getElem?_getD]
  by_cases h1 : i = j
  · subst h1
    by_cases h2 : i < l.length
    · simp [h2]
    · simp [h2]
      rw [List.getElem?_eq_none (by omega)]
      rfl
  · simp [h1]

theorem getD_mem_of_lt {α : Type} (l : List α) (p : Nat) (d : α) (h : p < l.length) :
    l.getD p d ∈ l := by
  rw [List.getD_eq_getElem l d h]
  exact List.getElem_mem h

/-- Apply a list of `(1-based index, value)` block/table writes in order. -/
def applySets {α : Type} (ps : List (Nat × α)) (l : List α) : List α :=
  ps.foldl (fun a p => a.set (p.1 - 1) p.2) l

theorem applySets_length {α : Type} (ps : List (Nat × α)) (l : List α) :
    (applySets ps l).length = l.length := by
  induction ps generalizing l with
  | nil => rfl
  | cons q ps ih =>
    rw [applySets, List.foldl_cons, ← applySets, ih, List.length_set]

theorem applySets_getD_not_mem {α : Type} (ps : List (Nat × α)) (l : List α) (p : Nat) (d : α)
    (hpos : ∀ q ∈ ps, 1 ≤ q.1) (hnot : (p + 1) ∉ ps.map Prod.fst) :
    (applySets ps l).getD p d = l.getD p d := by
  induction ps generalizing l with
  | nil => rfl
  | cons q ps ih =>
    rw [applySets, List.foldl_cons, ← applySets]
    rw [ih (l.set (q.1 - 1) q.2) (fun x hx => hpos x (by simp [hx]))
      (by simp at hnot ⊢; exact fun x hx => hnot.2 x hx)]
    rw [getD_set_gen]
    have hq1 : 1 ≤ q.1 := hpos q (by simp)
    have hqp : q.1 ≠ p + 1 := by
      simp at hnot
      exact fun h => hnot.1 h.symm
    rw [if_neg (by omega)]

theorem applySets_getD_mem_const {α : Type} (ps : List (Nat × α)) (l : List α) (p : Nat)
    (d v : α) (hconst : ∀ q ∈ ps, q.2 = v) (hp : p < l.length)
    (h : (p + 1) ∈ ps.map Prod.fst ∨ l.getD p d = v) :
    (applySets ps l).getD p d = v := by
  induction ps generalizing l with
  | nil =>
    rcases h with h | h
    · simp at h
    · exact h
  | cons q ps ih =>
    rw [applySets, List.foldl_cons, ← applySets]
    have hqv : q.2 = v := hconst q (by simp)
    apply ih (l.set (q.1 - 1) q.2) (fun x hx => hconst x (by simp [hx]))
      (by rw [List.length_set]; exact hp)
    rcases h with h | h
    · simp at h
      rcases h with h | h
      · right
        rw [getD_set_gen, if_pos (by omega)]
        exact hqv
      · left
        simpa using h
    · right
      rw [getD_set_gen]
      by_cases hc : q.1 - 1 = p ∧ p < l.length
      · rw [if_pos hc]
        exact hqv
      · rw [if_neg hc]
        exact h

theorem applySets_getD_mem_distinct {α : Type} (ps : List (Nat × α)) (l : List α)
    (i : Nat) (blk d : α)
    (hpos : ∀ q ∈ ps, 1 ≤ q.1) (hsorted : List.Pairwise (· < ·) (ps.map Prod.fst))
    (hmem : (i, blk) ∈ ps) (hlt : i - 1 < l.length) :
    (applySets ps l).getD (i - 1) d = blk := by
  induction ps generalizing l with
  | nil => simp at hmem
  | cons q ps ih =>
    rw [applySets, List.foldl_cons, ← applySets]
    simp only [List.mem_cons] at hmem
    rcases hmem with rfl | hmem
    · simp only at *
      have hi1 : 1 ≤ i := hpos (i, blk) (by simp)
      have hnotmem : (i - 1) + 1 ∉ ps.map Prod.fst := by
        have hall : ∀ x ∈ ps.map Prod.fst, i < x := by
          simp only [List.map_cons, List.pairwise_cons] at hsorted
          exact fun x hx => hsorted.1 x hx
        intro hmem2
        have := hall _ hmem2
        omega
      rw [applySets_getD_not_mem ps (l.set (i - 1) blk) (i - 1) d
        (fun x hx => hpos x (by simp [hx])) hnotmem]
      rw [getD_set_gen, if_pos ⟨rfl, hlt⟩]
    · exact ih (l.set (q.1 - 1) q.2) (fun x hx => hpos x (by simp [hx]))
        (by simp only [List.map_cons, List.pairwise_cons] at hsorted; exact hsorted.2) hmem
        (by rw [List.length_set]; exact hlt)

theorem ownedAux_mem (slot : Nat) :
    ∀ (alloc : List Nat) (i x : Nat),
      x ∈ ownedAux slot alloc i ↔
        ∃ p, p < alloc.length ∧ x = i + p + 1 ∧ alloc.getD p 0 = slot := by
  intro alloc
  induction alloc with
  | nil =>
    intro i x
    simp [ownedAux]
  | cons a rest ih =>
    intro i x
    rw [ownedAux]
    by_cases ha : a = slot
    · simp only [ha, if_true, List.mem_cons]
      constructor
      · rintro (rfl | hx)
        · exact ⟨0, by simp, by omega, by simp [List.getD_cons_zero, ha]⟩
        · obtain ⟨p, hp, hxe, hval⟩ := (ih (i + 1) x).mp hx
          exact ⟨p + 1, by simp; omega, by omega, by simpa [List.getD_cons_succ] using hval⟩
      · rintro ⟨p, hp, rfl, hval⟩
        match p with
        | 0 => left; omega
        | p + 1 =>
          right
          refine (ih (i + 1) _).mpr ⟨p, by simp at hp; omega, by omega, ?_⟩
          simpa [List.getD_cons_succ] using hval
    · simp only [ha, if_false]
      constructor
      · intro hx
        obtain ⟨p, hp, hxe, hval⟩ := (ih (i + 1) x).mp hx
        exact ⟨p + 1, by simp; omega, by omega, by simpa [List.getD_cons_succ] using hval⟩
      · rintro ⟨p, hp, rfl, hval⟩
        match p with
        | 0 =>
          rw [List.getD_cons_zero] at hval
          exact absurd hval ha
        | p + 1 =>
          refine (ih (i + 1) _).mpr ⟨p, by simp at hp; omega, by omega, ?_⟩
          simpa [List.getD_cons_succ] using hval

theorem candidatesAux_mem (slot : Nat) :
    ∀ (alloc : List Nat) (i x : Nat),
      x ∈ candidatesAux slot alloc i ↔
        ∃ p, p < alloc.length ∧ x = i + p + 1 ∧
          (alloc.getD p 0 = UNUSED_BLOCK ∨ alloc.getD p 0 = slot) := by
  intro alloc
  induction alloc with
  | nil =>
    intro i x
    simp [candidatesAux]
  | cons a rest ih =>
    intro i x
    rw [candidatesAux]
    by_cases ha : a = UNUSED_BLOCK ∨ a = slot
    · simp only [ha, if_true, List.mem_cons]
      constructor
      · rintro (rfl | hx)
        · exact ⟨0, by simp, by omega, by simpa [List.getD_cons_zero] using ha⟩
        · obtain ⟨p, hp, hxe, hval⟩ := (ih (i + 1) x).mp hx
          exact ⟨p + 1, by simp; omega, by omega, by simpa [List.getD_cons_succ] using hval⟩
      · rintro ⟨p, hp, rfl, hval⟩
        match p with
        | 0 => left; omega
        | p + 1 =>
          right
          refine (ih (i + 1) _).mpr ⟨p, by simp at hp; omega, by omega, ?_⟩
          simpa [List.getD_cons_succ] using hval
    · simp only [ha, if_false]
      constructor
      · intro hx
        obtain ⟨p, hp, hxe, hval⟩ := (ih (i + 1) x).mp hx
        exact ⟨p + 1, by simp; omega, by omega, by simpa [List.getD_cons_succ] using hval⟩
      · rintro ⟨p, hp, rfl, hval⟩
        match p with
        | 0 =>
          rw [List.getD_cons_zero] at hval
          exact absurd hval ha
        | p + 1 =>
          refine (ih (i + 1) _).mpr ⟨p, by simp at hp; omega, by omega, ?_⟩
          simpa [List.getD_cons_succ] using hval

theorem candidatesAux_lt (slot : Nat) (alloc : List Nat) (i x : Nat)
    (h : x ∈ candidatesAux slot alloc i) : i < x := by
  obtain ⟨p, _, rfl, _⟩ := (candidatesAux_mem slot alloc i x).mp h
  omega

theorem candidatesAux_le (slot : Nat) (alloc : List Nat) (i x : Nat)
    (h : x ∈ candidatesAux slot alloc i) : x ≤ i + alloc.length := by
  obtain ⟨p, hp, rfl, _⟩ := (candidatesAux_mem slot alloc i x).mp h
  omega

theorem candidatesAux_sorted (slot : Nat) :
    ∀ (alloc : List Nat) (i : Nat), List.Pairwise (· < ·) (candidatesAux slot alloc i) := by
  intro alloc
  induction alloc with
  | nil => intro i; simp [candidatesAux]
  | cons a rest ih =>
    intro i
    rw [candidatesAux]
    by_cases ha : a = UNUSED_BLOCK ∨ a = slot
    · simp only [ha, if_true]
      refine List.Pairwise.cons ?_ (ih (i + 1))
      intro x hx
      have := candidatesAux_lt slot rest (i + 1) x hx
      omega
    · simp only [ha, if_false]
      exact ih (i + 1)

theorem candidatesAux_length_le (slot : Nat) :
    ∀ (alloc : List Nat) (i : Nat), (candidatesAux slot alloc i).length ≤ alloc.length := by
  intro alloc
  induction alloc with
  | nil => intro i; simp [candidatesAux]
  | cons a rest ih =>
    intro i
    rw [candidatesAux]
    by_cases ha : a = UNUSED_BLOCK ∨ a = slot
    · simp only [ha, if_true, List.length_cons]
      exact Nat.succ_le_succ (ih (i + 1))
    · simp only [ha, if_false, List.length_cons]
      exact Nat.le_succ_of_le (ih (i + 1))

theorem firstOwnedAux_eq (slot : Nat) :
    ∀ (alloc : List Nat) (i p0 : Nat), p0 < alloc.length → alloc.getD p0 0 = slot →
      (∀ q, q < p0 → alloc.getD q 0 ≠ slot) →
      firstOwnedAux slot alloc i = some (i + p0) := by
  intro alloc
  induction alloc with
  | nil =>
    intro i p0 h1
    simp at h1
  | cons a rest ih =>
    intro i p0 h1 h2 h3
    by_cases ha : a = slot
    · have hp0 : p0 = 0 := by
        by_contra hne
        have := h3 0 (by omega)
        rw [List.getD_cons_zero] at this
        exact this ha
      subst hp0
      rw [firstOwnedAux]
      simp [ha]
    · rw [firstOwnedAux]
      simp only [ha, if_false]
      match p0, h1 with
      | 0, _ =>
        rw [List.getD_cons_zero] at h2
        exact absurd h2 ha
      | p0 + 1, h1 =>
        have := ih (i + 1) p0 (by simp at h1; omega) (by simpa [List.getD_cons_succ] using h2)
          (fun q hq => by
            have := h3 (q + 1) (by omega)
            simpa [List.getD_cons_succ] using this)
        rw [this]
        congr 1
        omega

theorem applySets_mem {α : Type} (ps : List (Nat × α)) (l : List α) (x : α)
    (h : x ∈ applySets ps l) : x ∈ l ∨ ∃ q ∈ ps, x = q.2 := by
  induction ps generalizing l with
  | nil => exact Or.inl h
  | cons q ps ih =>
    rw [applySets, List.foldl_cons, ← applySets] at h
    rcases ih (l.set (q.1 - 1) q.2) h with h2 | ⟨q2, hq2, rfl⟩
    · rcases List.mem_or_eq_of_mem_set h2 with h3 | rfl
      · exact Or.inl h3
      · exact Or.inr ⟨q, by simp, rfl⟩
    · exact Or.inr ⟨q2, by simp [hq2], rfl⟩

theorem foldl_const_eq_applySets {α : Type} (ps : List Nat) (v : α) (l : List α) :
    ps.foldl (fun a i => a.set (i - 1) v) l = applySets (ps.map (fun i => (i, v))) l := by
  rw [applySets, List.foldl_map]

theorem writeRegion_length (l : List Nat) (off : Nat) (v : List Nat)
    (h : off + v.length ≤ l.length) : (writeRegion l off v).length = l.length := by
  simp [writeRegion, List.length_take, List.length_drop]
  omega

theorem removeFile_state (fs : Fs) (slot : Nat) (hn : 8 * slot + 8 ≤ fs.names.length) :
    ((fs.removeFile slot).1).names.length = fs.names.length ∧
    ((fs.removeFile slot).1).versions.length = fs.versions.length ∧
    ((fs.removeFile slot).1).reserved = fs.reserved ∧
    ((fs.removeFile slot).1).active = fs.active ∧
    ((fs.removeFile slot).1).alloc.length = fs.alloc.length ∧
    ((fs.removeFile slot).1).blocks.length = fs.blocks.length ∧
    (∀ b ∈ ((fs.removeFile slot).1).blocks, b ∈ fs.blocks ∨ b = List.replicate 512 0) := by
  rw [Fs.removeFile]
  by_cases hiu : fs.isFileInUse slot
  · simp only [hiu, if_true]
    refine ⟨by rw [writeRegion_length]; simpa using hn, by simp [List.length_set], trivial,
      trivial, ?_, ?_, ?_⟩
    · rw [foldl_const_eq_applySets, applySets_length]
    · rw [foldl_const_eq_applySets, applySets_length]
    · intro b hb
      rw [foldl_const_eq_applySets] at hb
      rcases applySets_mem _ _ _ hb with h | ⟨q, hq, rfl⟩
      · exact Or.inl h
      · right
        simp only [List.mem_map] at hq
        obtain ⟨i, _, rfl⟩ := hq
        rfl
  · simp only [hiu, if_false]
    exact ⟨rfl, rfl, rfl, rfl, rfl, rfl, fun b hb => Or.inl hb⟩


theorem removeFile_alloc_getD (fs : Fs) (slot : Nat) (p : Nat) (hp : p < fs.alloc.length) :
    ((fs.removeFile slot).1).alloc.getD p 0 =
      if fs.alloc.getD p 0 = slot then UNUSED_BLOCK else fs.alloc.getD p 0 := by
  rw [Fs.removeFile]
  by_cases hiu : fs.isFileInUse slot
  · simp only [hiu, if_true]
    rw [foldl_const_eq_applySets]
    have hpos : ∀ q ∈ (ownedAux slot fs.alloc 0).map (fun i => (i, UNUSED_BLOCK)), 1 ≤ q.1 := by
      intro q hq
      simp only [List.mem_map] at hq
      obtain ⟨i, hi, rfl⟩ := hq
      obtain ⟨pp, _, rfl, _⟩ := (ownedAux_mem slot fs.alloc 0 i).mp hi
      omega
    have hfst : ((ownedAux slot fs.alloc 0).map (fun i => (i, UNUSED_BLOCK))).map Prod.fst =
        ownedAux slot fs.alloc 0 := by
      rw [List.map_map]
      have hcomp : (Prod.fst ∘ fun i : Nat => (i, UNUSED_BLOCK)) = id := rfl
      rw [hcomp, List.map_id]
    by_cases hv : fs.alloc.getD p 0 = slot
    · rw [if_pos hv]
      apply applySets_getD_mem_const _ _ _ _ _ ?_ hp
      · rw [hfst]
        left
        exact (ownedAux_mem slot fs.alloc 0 (p + 1)).mpr ⟨p, hp, by omega, hv⟩
      · intro q hq
        simp only [List.mem_map] at hq
        obtain ⟨i, _, rfl⟩ := hq
        rfl
    · rw [if_neg hv]
      apply applySets_getD_not_mem _ _ _ _ hpos
      rw [hfst]
      intro hmem
      obtain ⟨pp, _, hpe, hval⟩ := (ownedAux_mem slot fs.alloc 0 (p + 1)).mp hmem
      have : pp = p := by omega
      subst this
      exact hv hval
  · have hne : fs.alloc.getD p 0 ≠ slot := by
      intro hv
      apply hiu
      rw [Fs.isFileInUse, List.any_eq_true]
      exact ⟨fs.alloc.getD p 0, getD_mem_of_lt fs.alloc p 0 hp, beq_iff_eq.mpr hv⟩
    rw [if_neg hiu, if_neg hne]

theorem insertFold_names (pairs : List (Nat × List Nat)) (slot : Nat) (fs : Fs) :
    (pairs.foldl (fun f p =>
      { f with
        alloc := f.alloc.set (p.1 - 1) slot
        blocks := f.blocks.set (p.1 - 1) p.2 }) fs).names = fs.names := by
  induction pairs generalizing fs with
  | nil => rfl
  | cons q ps ih => rw [List.foldl_cons, ih]

theorem insertFold_versions (pairs : List (Nat × List Nat)) (slot : Nat) (fs : Fs) :
    (pairs.foldl (fun f p =>
      { f with
        alloc := f.alloc.set (p.1 - 1) slot
        blocks := f.blocks.set (p.1 - 1) p.2 }) fs).versions = fs.versions := by
  induction pairs generalizing fs with
  | nil => rfl
  | cons q ps ih => rw [List.foldl_cons, ih]

theorem insertFold_reserved (pairs : List (Nat × List Nat)) (slot : Nat) (fs : Fs) :
    (pairs.foldl (fun f p =>
      { f with
        alloc := f.alloc.set (p.1 - 1) slot
        blocks := f.blocks.set (p.1 - 1) p.2 }) fs).reserved = fs.reserved := by
  induction pairs generalizing fs with
  | nil => rfl
  | cons q ps ih => rw [List.foldl_cons, ih]

theorem insertFold_active (pairs : List (Nat × List Nat)) (slot : Nat) (fs : Fs) :
    (pairs.foldl (fun f p =>
      { f with
        alloc := f.alloc.set (p.1 - 1) slot
        blocks := f.blocks.set (p.1 - 1) p.2 }) fs).active = fs.active := by
  induction pairs generalizing fs with
  | nil => rfl
  | cons q ps ih => rw [List.foldl_cons, ih]

theorem insertFold_alloc (pairs : List (Nat × List Nat)) (slot : Nat) (fs : Fs) :
    (pairs.foldl (fun f p =>
      { f with
        alloc := f.alloc.set (p.1 - 1) slot
        blocks := f.blocks.set (p.1 - 1) p.2 }) fs).alloc =
      applySets (pairs.map (fun p => (p.1, slot))) fs.alloc := by
  induction pairs generalizing fs with
  | nil => rfl
  | cons q ps ih =>
    rw [List.foldl_cons, ih]
    rfl

theorem insertFold_blocks (pairs : List (Nat × List Nat)) (slot : Nat) (fs : Fs) :
    (pairs.foldl (fun f p =>
      { f with
        alloc := f.alloc.set (p.1 - 1) slot
        blocks := f.blocks.set (p.1 - 1) p.2 }) fs).blocks =
      applySets pairs fs.blocks := by
  induction pairs generalizing fs with
  | nil => rfl
  | cons q ps ih =>
    rw [List.foldl_cons, ih]
    rfl

theorem flatten_drop_uniform :
    ∀ (k : Nat) (L : List (List Nat)), (∀ x ∈ L, x.length = 512) →
      (L.flatten).drop (512 * k) = (L.drop k).flatten := by
  intro k
  induction k with
  | zero =>
    intro L _
    simp
  | succ k ih =>
    intro L h
    cases L with
    | nil => simp
    | cons x L =>
      have hx : x.length = 512 := h x (by simp)
      rw [List.flatten_cons, show 512 * (k + 1) = x.length + 512 * k by rw [hx]; ring,
        List.drop_append, ih L (fun y hy => h y (by simp [hy]))]
      rfl

theorem bytes_drop_block (fs : Fs) (hh : fs.headerBytes.length = 512)
    (hblens : ∀ b ∈ fs.blocks, b.length = 512) (i : Nat) (h1 : 1 ≤ i)
    (hib : i - 1 < fs.blocks.length) :
    fs.bytes.drop (512 * i) =
      fs.blocks.getD (i - 1) [] ++ ((fs.blocks.drop i).flatten) := by
  rw [Fs.bytes, show 512 * i = fs.headerBytes.length + 512 * (i - 1) by rw [hh]; omega,
    List.drop_append, flatten_drop_uniform (i - 1) fs.blocks hblens,
    List.drop_eq_getElem_cons hib, List.flatten_cons, show i - 1 + 1 = i by omega]
  congr 1
  exact (List.getD_eq_getElem fs.blocks [] hib).symm

theorem removeFile_alloc_length (fs : Fs) (slot : Nat) :
    ((fs.removeFile slot).1).alloc.length = fs.alloc.length := by
  rw [Fs.removeFile]
  by_cases hiu : fs.isFileInUse slot
  · simp only [hiu, if_true]
    rw [foldl_const_eq_applySets, applySets_length]
  · rw [if_neg hiu]

/-- The filesystem state built by the mutation phase of
`Filesystem::insert_file` once the compression loop has produced `pairs`:
remove the old occupant, write the name and version fields, then store each
block while pointing its allocation-table entry at `slot`. -/
def Fs.insertState (fs : Fs) (slot : Nat) (name : List Nat) (version : Nat)
    (pairs : List (Nat × List Nat)) : Fs :=
  pairs.foldl
    (fun f p =>
      { f with
        alloc := f.alloc.set (p.1 - 1) slot
        blocks := f.blocks.set (p.1 - 1) p.2 })
    { (fs.removeFile slot).1 with
      names := writeRegion ((fs.removeFile slot).1).names (8 * slot) name
      versions := ((fs.removeFile slot).1).versions.set slot version }

theorem insertFile_ok (fs : Fs) (slot : Nat) (name : List Nat) (version : Nat)
    (song : List Nat) (pairs : List (Nat × List Nat))
    (hok : compressAll (candidatesAux slot fs.alloc 0) song = .ok pairs) :
    fs.insertFile slot name version song =
      .ok (fs.insertState slot name version pairs, (fs.removeFile slot).2) := by
  unfold Fs.insertFile Fs.insertState
  rw [hok]

theorem insertState_names (fs : Fs) (slot : Nat) (name : List Nat) (version : Nat)
    (pairs : List (Nat × List Nat)) :
    (fs.insertState slot name version pairs).names =
      writeRegion ((fs.removeFile slot).1).names (8 * slot) name := by
  rw [Fs.insertState, insertFold_names]

theorem insertState_versions (fs : Fs) (slot : Nat) (name : List Nat) (version : Nat)
    (pairs : List (Nat × List Nat)) :
    (fs.insertState slot name version pairs).versions =
      ((fs.removeFile slot).1).versions.set slot version := by
  rw [Fs.insertState, insertFold_versions]

theorem insertState_reserved (fs : Fs) (slot : Nat) (name : List Nat) (version : Nat)
    (pairs : List (Nat × List Nat)) :
    (fs.insertState slot name version pairs).reserved =
      ((fs.removeFile slot).1).reserved := by
  rw [Fs.insertState, insertFold_reserved]

theorem insertState_active (fs : Fs) (slot : Nat) (name : List Nat) (version : Nat)
    (pairs : List (Nat × List Nat)) :
    (fs.insertState slot name version pairs).active =
      ((fs.removeFile slot).1).active := by
  rw [Fs.insertState, insertFold_active]

theorem insertState_alloc (fs : Fs) (slot : Nat) (name : List Nat) (version : Nat)
    (pairs : List (Nat × List Nat)) :
    (fs.insertState slot name version pairs).alloc =
      applySets (pairs.map (fun p => (p.1, slot))) ((fs.removeFile slot).1).alloc := by
  rw [Fs.insertState, insertFold_alloc]

theorem insertState_blocks (fs : Fs) (slot : Nat) (name : List Nat) (version : Nat)
    (pairs : List (Nat × List Nat)) :
    (fs.insertState slot name version pairs).blocks =
      applySets pairs ((fs.removeFile slot).1).blocks := by
  rw [Fs.insertState, insertFold_blocks]

/-- Pointwise allocation table after an insert: entries used by the new
pairs point at `slot`, the old occupant is freed, everything else is
untouched. -/
theorem insertState_alloc_getD (fs : Fs) (slot : Nat) (name : List Nat) (version : Nat)
    (pairs : List (Nat × List Nat)) (hpos : ∀ x ∈ pairs.map Prod.fst, 1 ≤ x)
    (q : Nat) (hq : q < fs.alloc.length) :
    (fs.insertState slot name version pairs).alloc.getD q 0 =
      if (q + 1) ∈ pairs.map Prod.fst then slot
      else if fs.alloc.getD q 0 = slot then UNUSED_BLOCK else fs.alloc.getD q 0 := by
  rw [insertState_alloc]
  have hmm : (pairs.map (fun p => (p.1, slot))).map Prod.fst = pairs.map Prod.fst := by
    have hcomp : (Prod.fst ∘ fun p : Nat × List Nat => (p.1, slot)) = Prod.fst := rfl
    rw [List.map_map, hcomp]
  by_cases hmem : (q + 1) ∈ pairs.map Prod.fst
  · rw [if_pos hmem]
    apply applySets_getD_mem_const
    · intro qq hqq
      simp only [List.mem_map] at hqq
      obtain ⟨x, _, rfl⟩ := hqq
      rfl
    · rw [removeFile_alloc_length]
      exact hq
    · left
      rw [hmm]
      exact hmem
  · rw [if_neg hmem]
    have h1 : ∀ qq ∈ pairs.map (fun p => (p.1, slot)), 1 ≤ qq.1 := by
      intro qq hqq
      simp only [List.mem_map] at hqq
      obtain ⟨x, hx, rfl⟩ := hqq
      exact hpos x.1 (List.mem_map.mpr ⟨x, hx, rfl⟩)
    have h2 : (q + 1) ∉ (pairs.map (fun p => (p.1, slot))).map Prod.fst := by
      rw [hmm]
      exact hmem
    rw [applySets_getD_not_mem _ _ _ _ h1 h2]
    exact removeFile_alloc_getD fs slot q hq

/-- `candidatesAux` only looks at whether each entry is free or owned by
`slot`, so pointwise-equivalent tables give the same candidate list. -/
theorem candidatesAux_congr (slot : Nat) :
    ∀ (l1 l2 : List Nat) (i : Nat), l1.length = l2.length →
      (∀ q, q < l1.length →
        ((l1.getD q 0 = UNUSED_BLOCK ∨ l1.getD q 0 = slot) ↔
          (l2.getD q 0 = UNUSED_BLOCK ∨ l2.getD q 0 = slot))) →
      candidatesAux slot l1 i = candidatesAux slot l2 i := by
  intro l1
  induction l1 with
  | nil =>
    intro l2 i hlen _
    cases l2 with
    | nil => rfl
    | cons b l2 => simp at hlen
  | cons a l1 ih =>
    intro l2 i hlen hpt
    cases l2 with
    | nil => simp at hlen
    | cons b l2 =>
      have h0 := hpt 0 (by simp)
      simp only [List.getD_cons_zero] at h0
      have htail : candidatesAux slot l1 (i + 1) = candidatesAux slot l2 (i + 1) := by
        apply ih l2 (i + 1) (by simpa using hlen)
        intro q hq
        have := hpt (q + 1) (by simp only [List.length_cons]; omega)
        simpa [List.getD_cons_succ] using this
      rw [candidatesAux, candidatesAux]
      by_cases ha : a = UNUSED_BLOCK ∨ a = slot
      · rw [if_pos ha, if_pos (h0.mp ha), htail]
      · rw [if_neg ha, if_neg (fun hb => ha (h0.mpr hb)), htail]

theorem candidatesAux_replicate_unused (slot : Nat) :
    ∀ (n i : Nat), (candidatesAux slot (List.replicate n UNUSED_BLOCK) i).length = n := by
  intro n
  induction n with
  | zero =>
    intro i
    rfl
  | succ n ih =>
    intro i
    rw [List.replicate_succ, candidatesAux, if_pos (Or.inl rfl), List.length_cons, ih]

theorem emptyFs_WF : emptyFs.WF := by
  refine ⟨List.length_replicate _ _, List.length_replicate _ _, List.length_replicate _ _,
    List.length_replicate _ _, List.length_replicate _ _, ?_⟩
  intro b hb
  have hb2 : b ∈ List.replicate 191 (List.replicate 512 0) := hb
  rw [List.eq_of_mem_replicate hb2]
  exact List.length_replicate _ _

/-- Central characterization of the state after a successful `insert_file`
compression loop: well-formedness is preserved, the slot is in use, and
`Entry::decompress` on the slot reproduces the inserted song. -/
theorem insertState_spec (fs : Fs) (slot : Nat) (name : List Nat) (version : Nat)
    (song : List Nat) (pairs : List (Nat × List Nat))
    (hwf : fs.WF) (hslot : slot < FILES_CAPACITY) (hname : name.length = 8)
    (hok : compressAll (candidatesAux slot fs.alloc 0) song = .ok pairs)
    (hsonglen : song.length = 0x8000) (hcheck : songCheck song = true) :
    (fs.insertState slot name version pairs).WF ∧
    (fs.insertState slot name version pairs).isFileInUse slot = true ∧
    (fs.insertState slot name version pairs).entryDecompress slot = some song := by
  obtain ⟨hn256, hv32, hr30, ha191, hb191, hbl512⟩ := hwf
  have hslot32 : slot < 32 := by simpa [FILES_CAPACITY] using hslot
  have hn : 8 * slot + 8 ≤ fs.names.length := by omega
  obtain ⟨hr1, hr2, hr3, hr4, hr5, hr6, hr7⟩ := removeFile_state fs slot hn
  obtain ⟨hfst, hpos1, hblk512, hdriver⟩ :=
    compressAll_spec (candidatesAux slot fs.alloc 0) song pairs hok
  obtain ⟨⟨i0, blk0⟩, pairs2, rfl⟩ : ∃ q pairs2, pairs = q :: pairs2 := by
    cases pairs with
    | nil => simp at hpos1
    | cons q ps => exact ⟨q, ps, rfl⟩
  have hcand_bounds : ∀ x ∈ candidatesAux slot fs.alloc 0, 1 ≤ x ∧ x ≤ 191 := by
    intro x hx
    have h1 := candidatesAux_lt slot fs.alloc 0 x hx
    have h2 := candidatesAux_le slot fs.alloc 0 x hx
    omega
  have hsubl : List.Sublist (((i0, blk0) :: pairs2).map Prod.fst)
      (candidatesAux slot fs.alloc 0) := by
    rw [hfst]
    exact List.take_sublist _ _
  have hmemc : ∀ x ∈ ((i0, blk0) :: pairs2).map Prod.fst, x ∈ candidatesAux slot fs.alloc 0 :=
    fun x hx => hsubl.subset hx
  have hposf : ∀ x ∈ ((i0, blk0) :: pairs2).map Prod.fst, 1 ≤ x :=
    fun x hx => (hcand_bounds x (hmemc x hx)).1
  have hsortedf : List.Pairwise (· < ·) (((i0, blk0) :: pairs2).map Prod.fst) := by
    rw [hfst]
    exact List.Pairwise.sublist (List.take_sublist _ _) (candidatesAux_sorted slot fs.alloc 0)
  have hi0f : i0 ∈ ((i0, blk0) :: pairs2).map Prod.fst := by simp
  have hi0b : 1 ≤ i0 ∧ i0 ≤ 191 := hcand_bounds i0 (hmemc i0 hi0f)
  have hmin : ∀ x ∈ ((i0, blk0) :: pairs2).map Prod.fst, i0 ≤ x := by
    obtain ⟨ctail, hc⟩ : ∃ ctail, candidatesAux slot fs.alloc 0 = i0 :: ctail := by
      cases hc : candidatesAux slot fs.alloc 0 with
      | nil =>
        rw [hc] at hfst
        simp at hfst
      | cons c ctail =>
        rw [hc] at hfst
        simp only [List.map_cons, List.length_cons, List.take_succ_cons, List.cons.injEq] at hfst
        exact ⟨ctail, by rw [hfst.1]⟩
    intro x hx
    have hxc := hmemc x hx
    rw [hc] at hxc
    rcases List.mem_cons.mp hxc with rfl | hxt
    · exact le_refl x
    · have hsor := candidatesAux_sorted slot fs.alloc 0
      rw [hc] at hsor
      exact le_of_lt ((List.pairwise_cons.mp hsor).1 x hxt)
  have hAL : (fs.insertState slot name version ((i0, blk0) :: pairs2)).alloc.length = 191 := by
    rw [insertState_alloc, applySets_length, hr5, ha191]
  have hptw : ∀ q, q < 191 →
      (fs.insertState slot name version ((i0, blk0) :: pairs2)).alloc.getD q 0 =
        if (q + 1) ∈ ((i0, blk0) :: pairs2).map Prod.fst then slot
        else if fs.alloc.getD q 0 = slot then UNUSED_BLOCK else fs.alloc.getD q 0 := by
    intro q hq
    exact insertState_alloc_getD fs slot name version _ hposf q (by omega)
  have hga : (fs.insertState slot name version ((i0, blk0) :: pairs2)).alloc.getD (i0 - 1) 0
      = slot := by
    rw [hptw (i0 - 1) (by omega)]
    rw [if_pos (by rw [show i0 - 1 + 1 = i0 by omega]; exact hi0f)]
  have hiu : (fs.insertState slot name version ((i0, blk0) :: pairs2)).isFileInUse slot
      = true := by
    rw [Fs.isFileInUse, List.any_eq_true]
    refine ⟨slot, ?_, beq_iff_eq.mpr rfl⟩
    have hmem := getD_mem_of_lt
      (fs.insertState slot name version ((i0, blk0) :: pairs2)).alloc (i0 - 1) 0
      (by rw [hAL]; omega)
    rwa [hga] at hmem
  have hNL : (fs.insertState slot name version ((i0, blk0) :: pairs2)).names.length = 256 := by
    rw [insertState_names, writeRegion_length _ _ _ (by rw [hname, hr1, hn256]; omega), hr1,
      hn256]
  have hVL : (fs.insertState slot name version ((i0, blk0) :: pairs2)).versions.length
      = 32 := by
    rw [insertState_versions, List.length_set, hr2, hv32]
  have hRlen : (fs.insertState slot name version ((i0, blk0) :: pairs2)).reserved.length
      = 30 := by
    rw [insertState_reserved, hr3]
    exact hr30
  have hBL : (fs.insertState slot name version ((i0, blk0) :: pairs2)).blocks.length
      = 191 := by
    rw [insertState_blocks, applySets_length, hr6, hb191]
  have hblocks512 : ∀ b ∈ (fs.insertState slot name version ((i0, blk0) :: pairs2)).blocks,
      b.length = 512 := by
    intro b hb
    rw [insertState_blocks] at hb
    rcases applySets_mem _ _ _ hb with h | ⟨qq, hqq, rfl⟩
    · rcases hr7 b h with h2 | rfl
      · exact hbl512 b h2
      · exact List.length_replicate _ _
    · exact hblk512 qq hqq
  have hWF : (fs.insertState slot name version ((i0, blk0) :: pairs2)).WF :=
    ⟨hNL, hVL, hRlen, hAL, hBL, hblocks512⟩
  have hhdr : (fs.insertState slot name version ((i0, blk0) :: pairs2)).headerBytes.length
      = 512 := by
    rw [Fs.headerBytes]
    simp [hNL, hVL, hRlen, hAL, CHECK_VALUE]
  refine ⟨hWF, hiu, ?_⟩
  have hfirst : firstOwnedAux slot
      (fs.insertState slot name version ((i0, blk0) :: pairs2)).alloc 0
      = some (0 + (i0 - 1)) := by
    apply firstOwnedAux_eq
    · rw [hAL]
      omega
    · exact hga
    · intro q hq
      have hnotm : (q + 1) ∉ ((i0, blk0) :: pairs2).map Prod.fst := by
        intro hmem
        have := hmin (q + 1) hmem
        omega
      rw [hptw q (by omega), if_neg hnotm]
      by_cases horig : fs.alloc.getD q 0 = slot
      · rw [if_pos horig]
        simp only [UNUSED_BLOCK]
        omega
      · rw [if_neg horig]
        exact horig
  rw [Fs.entryDecompress, hfirst]
  have hstore : ∀ p ∈ (i0, blk0) :: pairs2, ∃ s,
      (fs.insertState slot name version ((i0, blk0) :: pairs2)).bytes.drop (512 * p.1)
        = p.2 ++ s := by
    intro p hp
    have hpmem : p.1 ∈ ((i0, blk0) :: pairs2).map Prod.fst := List.mem_map.mpr ⟨p, hp, rfl⟩
    have hpb := hcand_bounds p.1 (hmemc p.1 hpmem)
    refine ⟨((fs.insertState slot name version ((i0, blk0) :: pairs2)).blocks.drop p.1).flatten,
      ?_⟩
    rw [bytes_drop_block _ hhdr hblocks512 p.1 hpb.1 (by rw [hBL]; omega)]
    congr 1
    rw [insertState_blocks]
    exact applySets_getD_mem_distinct _ _ p.1 p.2 []
      (fun qq hqq => hposf qq.1 (List.mem_map.mpr ⟨qq, hqq, rfl⟩)) hsortedf hp
      (by rw [hr6, hb191]; omega)
  have hfuel : ((i0, blk0) :: pairs2).length ≤ 192 := by
    have hlen := congrArg List.length hfst
    rw [List.length_map, List.length_take] at hlen
    have hle2 : ((i0, blk0) :: pairs2).length ≤ (candidatesAux slot fs.alloc 0).length := by
      rw [hlen]
      exact Nat.min_le_right _ _
    have hcl := candidatesAux_length_le slot fs.alloc 0
    omega
  have hcbytes : ∀ x ∈ candidatesAux slot fs.alloc 0, x ≠ CMD_BYTE ∧ x ≠ DEFAULT_WAVE_BYTE ∧
      x ≠ DEFAULT_INSTRUMENT_BYTE ∧ x ≠ EOF_BYTE := by
    intro x hx
    have hb := hcand_bounds x hx
    exact ⟨by simp only [CMD_BYTE]; omega, by simp only [DEFAULT_WAVE_BYTE]; omega,
      by simp only [DEFAULT_INSTRUMENT_BYTE]; omega, by simp only [EOF_BYTE]; omega⟩
  have hdrv := hdriver (fs.insertState slot name version ((i0, blk0) :: pairs2)).bytes 192 []
    i0 blk0 pairs2 rfl hfuel hcbytes hstore
  show (fs.insertState slot name version ((i0, blk0) :: pairs2)).decompressFrom
      (0 + (i0 - 1) + 1) = some song
  rw [Fs.decompressFrom, show 0 + (i0 - 1) + 1 = i0 by omega, hdrv]
  simp only [List.nil_append]
  rw [if_pos hsonglen, if_pos hcheck]

/-- C6: after every successful `insert_file(slot, name, version, song)` on a
well-formed filesystem, the slot is in use (so `file(slot)` returns an
entry), and that entry's `decompress()` — which locates the first
allocation-table entry owning the slot, applies the `+1` offset from table
index to storage block (block 0 being the metadata header), and follows the
jump-to-block targets written by the compressor until end-of-file — returns
exactly the inserted 32768-byte song. -/
theorem C6_insert_then_decompress (fs : Fs) (slot : Nat) (name : List Nat) (version : Nat)
    (song : List Nat) (res : Fs × Option LsdSngM)
    (hwf : fs.WF) (hslot : slot < FILES_CAPACITY) (hname : name.length = 8)
    (hsonglen : song.length = 0x8000) (hcheck : songCheck song = true)
    (hins : fs.insertFile slot name version song = .ok res) :
    res.1.isFileInUse slot = true ∧ res.1.entryDecompress slot = some song := by
  rcases hca : compressAll (candidatesAux slot fs.alloc 0) song with e | pairs
  · have herr : fs.insertFile slot name version song = .error e := by
      unfold Fs.insertFile
      rw [hca]
    rw [herr] at hins
    exact Except.noConfusion hins
  · have heq := insertFile_ok fs slot name version song pairs hca
    rw [heq] at hins
    injection hins with h2
    subst h2
    obtain ⟨_, hu, hd⟩ :=
      insertState_spec fs slot name version song pairs hwf hslot hname hca hsonglen hcheck
    exact ⟨hu, hd⟩

theorem C6_insert_then_decompress_witness :
    emptyFs.WF ∧ 0 < FILES_CAPACITY ∧ (List.replicate 8 65).length = 8 ∧
    witnessSong.length = 0x8000 ∧ songCheck witnessSong = true ∧
    ∃ res, emptyFs.insertFile 0 (List.replicate 8 65) 0 witnessSong = .ok res ∧
      res.1.isFileInUse 0 = true ∧ res.1.entryDecompress 0 = some witnessSong := by
  have hbn : blocksNeeded witnessSong ≤ (candidatesAux 0 emptyFs.alloc 0).length := by
    have h1 := blocksNeeded_le witnessSong
    rw [witnessSong_length] at h1
    have h2 : (candidatesAux 0 emptyFs.alloc 0).length = 191 :=
      candidatesAux_replicate_unused 0 191 0
    omega
  obtain ⟨pairs, hok, _⟩ :=
    (compressAll_blocks (candidatesAux 0 emptyFs.alloc 0) witnessSong).2 hbn
  have heq := insertFile_ok emptyFs 0 (List.replicate 8 65) 0 witnessSong pairs hok
  have hmain := C6_insert_then_decompress emptyFs 0 (List.replicate 8 65) 0 witnessSong
    (emptyFs.insertState 0 (List.replicate 8 65) 0 pairs, (emptyFs.removeFile 0).2)
    emptyFs_WF (by decide) (List.length_replicate _ _) witnessSong_length witnessSong_check
    heq
  exact ⟨emptyFs_WF, by decide, List.length_replicate _ _, witnessSong_length,
    witnessSong_check, _, heq, hmain.1, hmain.2⟩

/-- C5: when `insert_file(slot, name, version, song)` has just succeeded,
inserting the same file into the same slot again succeeds as well — the
candidate free-block list of the second call includes the blocks the slot
now owns, so it is exactly the first call's candidate list — the second
insertion replaces the first in place (the allocation table is unchanged),
and `blocks_used_count()` after the second insertion equals its value before
it: usage does not accumulate. -/
theorem C5_idempotent_insert (fs : Fs) (slot : Nat) (name : List Nat) (version : Nat)
    (song : List Nat) (res : Fs × Option LsdSngM)
    (hwf : fs.WF) (hslot : slot < FILES_CAPACITY)
    (hins : fs.insertFile slot name version song = .ok res) :
    ∃ res2, res.1.insertFile slot name version song = .ok res2 ∧
      res2.1.alloc = res.1.alloc ∧
      res2.1.blocksUsedCount = res.1.blocksUsedCount := by
  rcases hca : compressAll (candidatesAux slot fs.alloc 0) song with e | pairs
  · have herr : fs.insertFile slot name version song = .error e := by
      unfold Fs.insertFile
      rw [hca]
    rw [herr] at hins
    exact Except.noConfusion hins
  · have heq := insertFile_ok fs slot name version song pairs hca
    rw [heq] at hins
    injection hins with h2
    subst h2
    obtain ⟨hn256, hv32, hr30, ha191, hb191, hbl512⟩ := hwf
    have hslot32 : slot < 32 := by simpa [FILES_CAPACITY] using hslot
    obtain ⟨hfst, hpos1, hblk512, _⟩ :=
      compressAll_spec (candidatesAux slot fs.alloc 0) song pairs hca
    have hsubl : List.Sublist (pairs.map Prod.fst) (candidatesAux slot fs.alloc 0) := by
      rw [hfst]
      exact List.take_sublist _ _
    have hmemc : ∀ x ∈ pairs.map Prod.fst, x ∈ candidatesAux slot fs.alloc 0 :=
      fun x hx => hsubl.subset hx
    have hposf : ∀ x ∈ pairs.map Prod.fst, 1 ≤ x :=
      fun x hx => candidatesAux_lt slot fs.alloc 0 x (hmemc x hx)
    have hSlen : (fs.insertState slot name version pairs).alloc.length = fs.alloc.length := by
      rw [insertState_alloc, applySets_length, removeFile_alloc_length]
    have hptwS : ∀ q, q < fs.alloc.length →
        (fs.insertState slot name version pairs).alloc.getD q 0 =
          if (q + 1) ∈ pairs.map Prod.fst then slot
          else if fs.alloc.getD q 0 = slot then UNUSED_BLOCK else fs.alloc.getD q 0 :=
      fun q hq => insertState_alloc_getD fs slot name version pairs hposf q hq
    have hcond : ∀ q, q < fs.alloc.length →
        (((fs.insertState slot name version pairs).alloc.getD q 0 = UNUSED_BLOCK ∨
            (fs.insertState slot name version pairs).alloc.getD q 0 = slot) ↔
          (fs.alloc.getD q 0 = UNUSED_BLOCK ∨ fs.alloc.getD q 0 = slot)) := by
      intro q hq
      rw [hptwS q hq]
      by_cases hmem : (q + 1) ∈ pairs.map Prod.fst
      · rw [if_pos hmem]
        constructor
        · intro _
          have hqc := hmemc (q + 1) hmem
          obtain ⟨p, hp, hpe, hval⟩ := (candidatesAux_mem slot fs.alloc 0 (q + 1)).mp hqc
          have hpq : p = q := by omega
          subst hpq
          exact hval
        · intro _
          right
          rfl
      · rw [if_neg hmem]
        by_cases horig : fs.alloc.getD q 0 = slot
        · rw [if_pos horig]
          constructor
          · intro _
            right
            exact horig
          · intro _
            left
            rfl
        · rw [if_neg horig]
    have hc2 : candidatesAux slot (fs.insertState slot name version pairs).alloc 0 =
        candidatesAux slot fs.alloc 0 :=
      candidatesAux_congr slot (fs.insertState slot name version pairs).alloc fs.alloc 0
        hSlen (fun q hq => hcond q (hSlen ▸ hq))
    have hca2 : compressAll
        (candidatesAux slot (fs.insertState slot name version pairs).alloc 0) song
        = .ok pairs := by
      rw [hc2]
      exact hca
    have heq2 := insertFile_ok (fs.insertState slot name version pairs) slot name version
      song pairs hca2
    have hSlen2 : ((fs.insertState slot name version pairs).insertState slot name version
        pairs).alloc.length = (fs.insertState slot name version pairs).alloc.length := by
      rw [insertState_alloc, applySets_length, removeFile_alloc_length]
    have hSex : ((fs.insertState slot name version pairs).insertState slot name version
        pairs).alloc = (fs.insertState slot name version pairs).alloc := by
      apply List.ext_getElem hSlen2
      intro q hq1 hq2
      rw [← List.getD_eq_getElem _ 0 hq1, ← List.getD_eq_getElem _ 0 hq2]
      have hqf : q < fs.alloc.length := by
        rw [← hSlen]
        exact hq2
      have hv := hptwS q hqf
      rw [insertState_alloc_getD (fs.insertState slot name version pairs) slot name version
        pairs hposf q hq2]
      by_cases hmem : (q + 1) ∈ pairs.map Prod.fst
      · rw [if_pos hmem, hv, if_pos hmem]
      · rw [if_neg hmem]
        have hvne : (fs.insertState slot name version pairs).alloc.getD q 0 ≠ slot := by
          rw [hv, if_neg hmem]
          by_cases horig : fs.alloc.getD q 0 = slot
          · rw [if_pos horig]
            simp only [UNUSED_BLOCK]
            omega
          · rw [if_neg horig]
            exact horig
        rw [if_neg hvne]
    have hcount : ((fs.insertState slot name version pairs).insertState slot name version
        pairs).blocksUsedCount = (fs.insertState slot name version pairs).blocksUsedCount := by
      rw [Fs.blocksUsedCount, Fs.blocksUsedCount, hSex]
    exact ⟨((fs.insertState slot name version pairs).insertState slot name version pairs,
      ((fs.insertState slot name version pairs).removeFile slot).2), heq2, hSex, hcount⟩

theorem C5_idempotent_insert_witness :
    emptyFs.WF ∧ 0 < FILES_CAPACITY ∧ (List.replicate 8 65).length = 8 ∧
    ∃ res, emptyFs.insertFile 0 (List.replicate 8 65) 0 witnessSong = .ok res ∧
      ∃ res2, res.1.insertFile 0 (List.replicate 8 65) 0 witnessSong = .ok res2 ∧
        res2.1.alloc = res.1.alloc ∧
        res2.1.blocksUsedCount = res.1.blocksUsedCount := by
  have hbn : blocksNeeded witnessSong ≤ (candidatesAux 0 emptyFs.alloc 0).length := by
    have h1 := blocksNeeded_le witnessSong
    rw [witnessSong_length] at h1
    have h2 : (candidatesAux 0 emptyFs.alloc 0).length = 191 :=
      candidatesAux_replicate_unused 0 191 0
    omega
  obtain ⟨pairs, hok, _⟩ :=
    (compressAll_blocks (candidatesAux 0 emptyFs.alloc 0) witnessSong).2 hbn
  have heq := insertFile_ok emptyFs 0 (List.replicate 8 65) 0 witnessSong pairs hok
  have hmain := C5_idempotent_insert emptyFs 0 (List.replicate 8 65) 0 witnessSong
    (emptyFs.insertState 0 (List.replicate 8 65) 0 pairs, (emptyFs.removeFile 0).2)
    emptyFs_WF (by decide) heq
  exact ⟨emptyFs_WF, by decide, List.length_replicate _ _, _, heq, hmain⟩

end Lsdj
